import Mathlib

/-!
Verification of the Turbulance DSL pipeline (parser / compiler / orchestrator)
of the four-sided-triangle repository, shallowly embedded from
`src/turbulance/parser.rs`, `src/turbulance/compiler.rs` and
`src/turbulance/orchestrator.rs`.

Modelling conventions:
* Rust `f64` is modelled as `ℚ` (exact arithmetic; the claims only involve
  small exact constants).
* `HashMap` / `HashSet` are modelled as association lists / lists with
  set-membership semantics.  Rust hash containers iterate in an unspecified
  order, so every function of the source that iterates such a container is
  parameterised by an iteration-order oracle (`sel`, `ko`); theorems quantify
  over all oracles that produce permutations, and the determinism
  counterexample exhibits two of them.
* Recursive procedures of the source that terminate by a decreasing
  state (DFS on a finite node set, the ready-set scheduling loop) are given
  an explicit fuel argument; the entry points pass a fuel that dominates the
  real recursion depth, so the embedded function agrees with the source.
* Rust panics (which abort, unlike `Result` errors) are modelled by the
  `Except.error` channel of the parser functions; the source parser never
  constructs a `Result::Err`, so the only error the embedded parser can
  return is the slice panic of `parse_value`.
-/

/-- `TurbulanceValue` of parser.rs: tagged union of DSL values. -/
inductive TValue where
  | str : String → TValue
  | num : ℚ → TValue
  | bool : Bool → TValue
  | arr : List TValue → TValue
  | obj : List (String × TValue) → TValue
  | pipelineCall : String → List (String × TValue) → TValue
deriving Repr

/-- `NodeType` of parser.rs. -/
inductive NodeType where
  | Proposition | Hypothesis | PipelineStage | Function | Conditional
  | DataSource | Variable | Comment | Expression
deriving Repr, DecidableEq

/-- `TurbulanceNode` of parser.rs (field `content` is the raw line text). -/
structure TurbulanceNode where
  node_type : NodeType
  line_number : Nat
  content : String
  name : Option String
  parameters : List (String × TValue)
  children : List TurbulanceNode
  dependencies : List String
deriving Repr

/-- `TurbulanceScript` of parser.rs (`variables` is a reserved word in
Lean, so that field is called `variables_map` here). -/
structure TurbulanceScript where
  protocol_name : String
  nodes : List TurbulanceNode
  propositions : List TurbulanceNode
  pipeline_calls : List TurbulanceNode
  functions : List TurbulanceNode
  data_sources : List TurbulanceNode
  variables_map : List (String × TValue)
  dependencies : List (String × List String)
deriving Repr

/-- First-match lookup in an association list (`HashMap::get`). -/
def lookupAL {α : Type} : List (String × α) → String → Option α
  | [], _ => none
  | p :: rest, k => if p.1 = k then some p.2 else lookupAL rest k

/-- `HashMap::insert`: overwrite the value at an existing key, else append.
The position of an existing key is kept so that the key list stays nodup. -/
def insertAL {α : Type} (l : List (String × α)) (k : String) (v : α) :
    List (String × α) :=
  match l with
  | [] => [(k, v)]
  | p :: rest => if p.1 = k then (k, v) :: rest else p :: insertAL rest k v

/-- Keys of an association list. -/
def alKeys {α : Type} (l : List (String × α)) : List String := l.map Prod.fst

/-- `ResourceRequirements` of compiler.rs; all fields are `f64`, here `ℚ`. -/
structure ResourceRequirements where
  cpu_cores : ℚ
  memory_gb : ℚ
  gpu_units : ℚ
  network_bandwidth_mbps : ℚ
  estimated_duration_seconds : ℚ
  storage_gb : ℚ
deriving Repr, DecidableEq

/-- `ExecutionMode` of compiler.rs. -/
inductive ExecutionMode where
  | Sequential | Parallel | Adaptive | Optimized
deriving Repr, DecidableEq

/-- `ExecutionStep` of compiler.rs. -/
structure ExecutionStep where
  step_id : String
  stage_name : String
  variable_name : String
  parameters : List (String × TValue)
  dependencies : List String
  resource_requirements : ResourceRequirements
  line_number : Nat
  priority : ℚ
  timeout_seconds : ℚ
deriving Repr

/-- `CompiledProtocol` of compiler.rs.  The two purely descriptive
by-products (`auxiliary_files`, `optimization_hints`) carry no control
semantics (spec section 4.2 (h)/(i)) and are not inspected by any claim,
so they are omitted from the embedded record. -/
structure CompiledProtocol where
  protocol_name : String
  execution_steps : List ExecutionStep
  execution_mode : ExecutionMode
  total_resource_requirements : ResourceRequirements
  dependency_graph : List (String × List String)
  execution_order : List String
  parallel_groups : List (List String)
deriving Repr

/-- `TurbulanceCompiler::initialize_stage_mappings`: the static DSL-name →
canonical-stage-name table. -/
def stageMappings (s : String) : Option String :=
  if s = "query_processor" then some "stage0_query_processor"
  else if s = "semantic_atdb" then some "stage1_semantic_atdb"
  else if s = "domain_knowledge" then some "stage2_domain_knowledge"
  else if s = "reasoning_optimization" then some "stage3_reasoning_optimization"
  else if s = "solution_generation" then some "stage4_solution"
  else if s = "response_scoring" then some "stage5_scoring"
  else if s = "response_comparison" then some "stage6_comparison"
  else if s = "threshold_verification" then some "stage7_verification"
  else none

/-- `TurbulanceCompiler::initialize_resource_models`: the static per-stage
base resource table. -/
def resourceModels (s : String) : Option ResourceRequirements :=
  if s = "stage0_query_processor" then some ⟨1, 2, 0, 10, 5, 1/10⟩
  else if s = "stage1_semantic_atdb" then some ⟨2, 4, 0, 20, 15, 2/10⟩
  else if s = "stage2_domain_knowledge" then some ⟨4, 8, 1, 50, 30, 5/10⟩
  else if s = "stage3_reasoning_optimization" then some ⟨3, 6, 1/2, 30, 25, 3/10⟩
  else if s = "stage4_solution" then some ⟨2, 4, 0, 25, 20, 2/10⟩
  else if s = "stage5_scoring" then some ⟨1, 2, 0, 15, 10, 1/10⟩
  else if s = "stage6_comparison" then some ⟨2, 4, 0, 20, 15, 2/10⟩
  else if s = "stage7_verification" then some ⟨1, 2, 0, 10, 8, 1/10⟩
  else none

/-- The default requirements used when a stage is absent from the table. -/
def defaultRequirements : ResourceRequirements := ⟨1, 2, 0, 10, 15, 1/10⟩

/-- `TurbulanceCompiler::adjust_resource_requirements`. -/
def adjustResourceRequirements (r : ResourceRequirements)
    (config : List (String × TValue)) : ResourceRequirements :=
  let r :=
    match lookupAL config "expert_models" with
    | some (TValue.arr expert_models) =>
      let model_count : ℚ := expert_models.length
      { r with
        cpu_cores := r.cpu_cores * (1 + (model_count - 1) * (1/2)),
        memory_gb := r.memory_gb * (1 + (model_count - 1) * (3/10)),
        estimated_duration_seconds :=
          r.estimated_duration_seconds * (1 + (model_count - 1) * (2/10)) }
    | _ => r
  let r :=
    match lookupAL config "resource_priority" with
    | some (TValue.str p) =>
      let multiplier : ℚ :=
        if p = "high" then 3/2 else if p = "critical" then 2
        else if p = "low" then 7/10 else 1
      { r with cpu_cores := r.cpu_cores * multiplier,
               memory_gb := r.memory_gb * multiplier }
    | _ => r
  match lookupAL config "minimum_confidence" with
  | some (TValue.num q) =>
    if 9/10 < q then
      { r with estimated_duration_seconds := r.estimated_duration_seconds * (3/2),
               cpu_cores := r.cpu_cores * (12/10) }
    else r
  | _ => r

/-- Build one `ExecutionStep` from one `PipelineStage` node
(the loop body of `extract_execution_steps`). -/
def buildStep (protocol_name : String) (node : TurbulanceNode) :
    Except String ExecutionStep :=
  match node.name with
  | none => .error "Pipeline stage missing variable name"
  | some variable_name =>
    match lookupAL node.parameters "stage" with
    | some (TValue.str stage_name) =>
      let actual_stage := (stageMappings stage_name).getD stage_name
      let resource_requirements :=
        (resourceModels actual_stage).getD defaultRequirements
      let adjusted_requirements :=
        match lookupAL node.parameters "config" with
        | some (TValue.obj config) =>
          adjustResourceRequirements resource_requirements config
        | _ => resource_requirements
      .ok
        { step_id := protocol_name ++ "_" ++ variable_name,
          stage_name := actual_stage,
          variable_name := variable_name,
          parameters := node.parameters,
          dependencies := node.dependencies,
          resource_requirements := adjusted_requirements,
          line_number := node.line_number,
          priority := 1,
          timeout_seconds := resource_requirements.estimated_duration_seconds * 3 }
    | _ => .error "Pipeline stage missing stage name"

/-- The node loop of `extract_execution_steps` (nodes that are not
pipeline stages are skipped by the `continue`). -/
def extractStepsGo (pname : String) :
    List TurbulanceNode → Except String (List ExecutionStep)
  | [] => .ok []
  | node :: rest =>
    if node.node_type ≠ NodeType.PipelineStage then extractStepsGo pname rest
    else do
      let step ← buildStep pname node
      let steps ← extractStepsGo pname rest
      .ok (step :: steps)

/-- `TurbulanceCompiler::extract_execution_steps`. -/
def extractExecutionSteps (script : TurbulanceScript) :
    Except String (List ExecutionStep) :=
  extractStepsGo script.protocol_name script.pipeline_calls

/-- `TurbulanceCompiler::build_dependency_graph`.  Unresolved dependency
names (not the variable name of any step) are silently dropped. -/
def buildDependencyGraph (steps : List ExecutionStep) :
    List (String × List String) :=
  let var_to_step : List (String × String) :=
    steps.foldl (fun m s => insertAL m s.variable_name s.step_id) []
  steps.foldl
    (fun g s =>
      let resolved := s.dependencies.filterMap (fun d => lookupAL var_to_step d)
      insertAL g s.step_id resolved)
    []

/-- Dependencies of a node in the graph; a missing key acts as `[]`
(the source guards every graph access with `if let Some`). -/
def depsOf (g : List (String × List String)) (x : String) : List String :=
  (lookupAL g x).getD []

/-- The error message of `calculate_depth_dfs` on revisit-within-path. -/
def cycleMsg : String := "Circular dependency detected"

/-- The error message of `calculate_execution_plan` on an empty ready set. -/
def deadlockMsg : String := "Deadlock in dependency graph"

/-- `TurbulanceCompiler::calculate_depth_dfs` together with its inner
dependency loop, merged into one list-processing function so that the
recursion is structural in the fuel (Lean well-founded and mutual
recursion do not reduce definitionally).  Processing `x :: rest` first
runs the body of `calculate_depth_dfs` on `x` (path check, visited check,
recursive descent into the dependencies with `x` pushed onto both sets)
and then the remaining siblings on the threaded visited set, combining
child depths with `max` exactly as the source loop does.  The fuel passed
by `calcMaxDepth` dominates the length of every call chain; exhaustion is
reported as the cycle error and is unreachable for that fuel. -/
def calcDepthGo (g : List (String × List String)) :
    Nat → List String → List String → List String →
    Except String (List String × Nat)
  | 0, _, _, _ => .error cycleMsg
  | _ + 1, [], visited, _ => .ok (visited, 0)
  | fuel + 1, x :: rest, visited, path => do
    let (v1, d1) ←
      if x ∈ path then Except.error cycleMsg
      else if x ∈ visited then Except.ok (visited, 0)
      else do
        let (v, d) ← calcDepthGo g fuel (depsOf g x) (x :: visited) (x :: path)
        Except.ok (v, d + 1)
    let (v2, d2) ← calcDepthGo g fuel rest v1 path
    Except.ok (v2, max d1 d2)

/-- One more than the number of node occurrences of the graph: an upper
bound on the depth of any DFS recursion. -/
def nodeBound (g : List (String × List String)) : Nat :=
  ((alKeys g).length + (g.map Prod.snd).flatten.length + 2)
    * ((alKeys g).length + (g.map Prod.snd).flatten.length + 2)

/-- The key loop of `calculate_max_dependency_depth`; the key order `ko`
is the iteration order of `dependency_graph.keys()` (the source iterates
a `HashMap`, whose order is unspecified). -/
def calcMaxDepthGo (g : List (String × List String)) :
    List String → List String → Nat → Except String Nat
  | [], _, maxd => .ok maxd
  | k :: rest, visited, maxd =>
    if k ∈ visited then calcMaxDepthGo g rest visited maxd
    else do
      let (v, d) ← calcDepthGo g (nodeBound g) [k] visited []
      calcMaxDepthGo g rest v (max maxd d)

/-- `TurbulanceCompiler::calculate_max_dependency_depth` proper. -/
def calcMaxDepth (g : List (String × List String)) (ko : List String) :
    Except String Nat :=
  calcMaxDepthGo g ko [] 0

/-- The predicate of `determine_execution_mode` counting independent steps
(`map_or(true, |deps| deps.is_empty())`). -/
def isIndependent (g : List (String × List String)) (s : ExecutionStep) : Bool :=
  match lookupAL g s.step_id with
  | some deps => deps.isEmpty
  | none => true

/-- `TurbulanceCompiler::determine_execution_mode`. -/
def determineExecutionMode (steps : List ExecutionStep)
    (g : List (String × List String)) (ko : List String) :
    Except String ExecutionMode := do
  let total_steps := steps.length
  let independent_steps := (steps.filter (isIndependent g)).length
  let max_depth ← calcMaxDepth g ko
  let avg_dependencies : ℚ :=
    ((g.map (fun p => p.2.length)).sum : ℚ) / (total_steps : ℚ)
  if independent_steps = total_steps then .ok .Parallel
  else if independent_steps = 0 then .ok .Sequential
  else if max_depth ≤ 3 ∧ avg_dependencies < 2 then .ok .Adaptive
  else .ok .Optimized

/-- Whether a step is ready: all its dependencies are completed. -/
def isReady (g : List (String × List String)) (completed : List String)
    (id : String) : Bool :=
  (depsOf g id).all (fun dep => dep ∈ completed)

/-- The while-loop of `calculate_execution_plan`.  `sel` reorders the
remaining set after each round, modelling `HashSet` iteration order; the
fuel passed by `calcExecutionPlan` dominates the number of rounds (each
successful round removes at least one element), so fuel exhaustion is
unreachable there and is reported as the deadlock error. -/
def planLoop (g : List (String × List String))
    (sel : List String → List String) :
    Nat → List String → List String →
    Except String (List String × List (List String))
  | 0, remaining, _ =>
    if remaining.isEmpty then .ok ([], []) else .error deadlockMsg
  | fuel + 1, remaining, completed =>
    if remaining.isEmpty then .ok ([], [])
    else
      let ready := remaining.filter (isReady g completed)
      if ready.isEmpty then .error deadlockMsg
      else do
        let (ord, grps) ← planLoop g sel fuel
          (sel (remaining.filter (fun id => id ∉ ready)))
          (completed ++ ready)
        .ok (ready ++ ord,
             if 1 < ready.length then ready :: grps else grps)

/-- `TurbulanceCompiler::calculate_execution_plan`.  The initial remaining
set is the set of step ids (`HashSet` collection deduplicates) in the
oracle's order. -/
def calcExecutionPlan (steps : List ExecutionStep)
    (g : List (String × List String))
    (sel : List String → List String) :
    Except String (List String × List (List String)) :=
  let ids := (steps.map (fun s => s.step_id)).dedup
  planLoop g sel (ids.length + 1) (sel ids) []

/-- The `ExecutionMode::Parallel` arm of `calculate_total_resources`:
per-resource maximum (`fold(0.0, f64::max)`), storage summed. -/
def totalResourcesParallel (steps : List ExecutionStep) : ResourceRequirements :=
  { cpu_cores := (steps.map (fun s => s.resource_requirements.cpu_cores)).foldl max 0,
    memory_gb := (steps.map (fun s => s.resource_requirements.memory_gb)).foldl max 0,
    gpu_units := (steps.map (fun s => s.resource_requirements.gpu_units)).foldl max 0,
    network_bandwidth_mbps :=
      (steps.map (fun s => s.resource_requirements.network_bandwidth_mbps)).foldl max 0,
    estimated_duration_seconds :=
      (steps.map (fun s => s.resource_requirements.estimated_duration_seconds)).foldl max 0,
    storage_gb := (steps.map (fun s => s.resource_requirements.storage_gb)).sum }

/-- The `ExecutionMode::Sequential` arm of `calculate_total_resources`:
per-resource mean, duration and storage summed. -/
def totalResourcesSequential (steps : List ExecutionStep) : ResourceRequirements :=
  let step_count : ℚ := steps.length
  { cpu_cores := (steps.map (fun s => s.resource_requirements.cpu_cores)).sum / step_count,
    memory_gb := (steps.map (fun s => s.resource_requirements.memory_gb)).sum / step_count,
    gpu_units := (steps.map (fun s => s.resource_requirements.gpu_units)).sum / step_count,
    network_bandwidth_mbps :=
      (steps.map (fun s => s.resource_requirements.network_bandwidth_mbps)).sum / step_count,
    estimated_duration_seconds :=
      (steps.map (fun s => s.resource_requirements.estimated_duration_seconds)).sum,
    storage_gb := (steps.map (fun s => s.resource_requirements.storage_gb)).sum }

/-- `TurbulanceCompiler::calculate_total_resources` (the default arm calls
the function again with the `Parallel` and `Sequential` modes; that
unfolding is written out here because `ExecutionMode` carries no
decreasing structure for Lean recursion). -/
def calcTotalResources (steps : List ExecutionStep) (mode : ExecutionMode) :
    ResourceRequirements :=
  match mode with
  | .Parallel => totalResourcesParallel steps
  | .Sequential => totalResourcesSequential steps
  | _ =>
    let parallel_reqs := totalResourcesParallel steps
    let sequential_reqs := totalResourcesSequential steps
    { cpu_cores := (parallel_reqs.cpu_cores + sequential_reqs.cpu_cores) / 2,
      memory_gb := (parallel_reqs.memory_gb + sequential_reqs.memory_gb) / 2,
      gpu_units := (parallel_reqs.gpu_units + sequential_reqs.gpu_units) / 2,
      network_bandwidth_mbps :=
        (parallel_reqs.network_bandwidth_mbps + sequential_reqs.network_bandwidth_mbps) / 2,
      estimated_duration_seconds :=
        (parallel_reqs.estimated_duration_seconds
          + sequential_reqs.estimated_duration_seconds) / 2,
      storage_gb := parallel_reqs.storage_gb }

/-- `TurbulanceCompiler::compile_protocol`.  `ko` and `sel` are the two
hash-container iteration-order oracles (see the module comment); the
auxiliary files and optimization hints, which no claim inspects, are not
reproduced. -/
def compileProtocol (script : TurbulanceScript) (ko : List String)
    (sel : List String → List String) : Except String CompiledProtocol := do
  let execution_steps ← extractExecutionSteps script
  let dependency_graph := buildDependencyGraph execution_steps
  let execution_mode ← determineExecutionMode execution_steps dependency_graph ko
  let (execution_order, parallel_groups) ←
    calcExecutionPlan execution_steps dependency_graph sel
  let total_resource_requirements :=
    calcTotalResources execution_steps execution_mode
  .ok
    { protocol_name := script.protocol_name,
      execution_steps := execution_steps,
      execution_mode := execution_mode,
      total_resource_requirements := total_resource_requirements,
      dependency_graph := dependency_graph,
      execution_order := execution_order,
      parallel_groups := parallel_groups }

/-- An iteration-order oracle is valid when it permutes its input. -/
def SelValid (sel : List String → List String) : Prop :=
  ∀ l : List String, (sel l).Perm l

/-- The identity oracle. -/
def selId : List String → List String := fun l => l

/-- The reversing oracle (also a valid hash-iteration order). -/
def selRev : List String → List String := fun l => l.reverse

/-- `serde_json::Value`, as far as the embedded orchestrator needs it (the
claims never inspect stage outputs). -/
inductive Json where
  | null : Json
  | str : String → Json
  | num : ℚ → Json
  | bool : Bool → Json
  | arr : List Json → Json
  | obj : List (String × Json) → Json
deriving Repr

/-- `ExecutionStatus` of orchestrator.rs. -/
inductive ExecutionStatus where
  | Pending | Running | Completed | Failed | Cancelled | Timeout
deriving Repr, DecidableEq

/-- `ResourceUsage` of orchestrator.rs. -/
structure ResourceUsage where
  cpu_cores_used : ℚ
  memory_gb_used : ℚ
  gpu_units_used : ℚ
  network_bandwidth_mbps_used : ℚ
  storage_gb_used : ℚ
deriving Repr, DecidableEq

/-- `QualityMetrics` of orchestrator.rs. -/
structure QualityMetrics where
  accuracy : ℚ
  completeness : ℚ
  relevance : ℚ
  confidence : ℚ
  novelty : ℚ
  coherence : ℚ
deriving Repr, DecidableEq

/-- `StepResult` of orchestrator.rs. -/
structure StepResult where
  step_id : String
  status : ExecutionStatus
  output : Json
  execution_time_seconds : ℚ
  resource_usage : ResourceUsage
  quality_metrics : QualityMetrics
  error_message : Option String
deriving Repr

/-- `ExecutionStatistics` of orchestrator.rs. -/
structure ExecutionStatistics where
  steps_completed : Nat
  steps_failed : Nat
  parallelization_efficiency : ℚ
  resource_utilization_efficiency : ℚ
  average_step_quality : ℚ
  bottleneck_stages : List String
deriving Repr

/-- `ExecutionResult` of orchestrator.rs. -/
structure ExecutionResult where
  protocol_name : String
  overall_status : ExecutionStatus
  step_results : List StepResult
  total_execution_time_seconds : ℚ
  total_resource_usage : ResourceUsage
  overall_quality_metrics : QualityMetrics
  execution_statistics : ExecutionStatistics
deriving Repr

/-- The orchestrator's external collaborators and its wall clock, which the
spec (sections 1 and 6) treats as opaque: the stage executor, the per-step
elapsed time, the quality evaluator, the total run time, and the strategy
chosen by the metacognitive optimizer in Optimized mode. -/
structure StageEnv where
  execStage : String → List (String × TValue) → Except String Json
  elapsed : ExecutionStep → ℚ
  quality : Json → String → QualityMetrics
  totalElapsed : ℚ
  strategy : Nat → ResourceRequirements → String

/-- The stage names `execute_stage` recognises; any other name hits the
default arm and returns an error. -/
def knownStages : List String :=
  ["stage0_query_processor", "stage1_semantic_atdb", "stage2_domain_knowledge",
   "stage3_reasoning_optimization", "stage4_solution", "stage5_scoring",
   "stage6_comparison", "stage7_verification"]

/-- `TurbulanceOrchestrator::execute_stage`: a match on the stage name whose
known arms call the simulated stages (their payloads come from the opaque
probabilistic subsystems and are modelled as `Json.null`) and whose default
arm returns the unknown-stage error. -/
def defaultExecStage (stage_name : String) (_params : List (String × TValue)) :
    Except String Json :=
  if stage_name ∈ knownStages then .ok Json.null
  else .error ("Unknown stage: " ++ stage_name)

/-- `TurbulanceOrchestrator::execute_step`.  The semaphore acquisitions
at the head of the source function suspend but cannot fail (the pool is
never closed), so they have no effect on the returned value.  Note the
source applies `?` to the `execute_stage` call: an executor error becomes
an `Err` of `execute_step`, not a `Failed` result. -/
def executeStep (env : StageEnv) (step : ExecutionStep) :
    Except String StepResult := do
  let out ← env.execStage step.stage_name step.parameters
  let execution_time := env.elapsed step
  let scale := execution_time / step.resource_requirements.estimated_duration_seconds
  .ok
    { step_id := step.step_id,
      status := .Completed,
      output := out,
      execution_time_seconds := execution_time,
      resource_usage :=
        { cpu_cores_used := step.resource_requirements.cpu_cores * scale,
          memory_gb_used := step.resource_requirements.memory_gb * scale,
          gpu_units_used := step.resource_requirements.gpu_units * scale,
          network_bandwidth_mbps_used :=
            step.resource_requirements.network_bandwidth_mbps * scale,
          storage_gb_used := step.resource_requirements.storage_gb },
      quality_metrics := env.quality out step.stage_name,
      error_message := none }

/-- Zero resource usage (the initializer of both execute loops). -/
def zeroUsage : ResourceUsage := ⟨0, 0, 0, 0, 0⟩

/-- Zero quality metrics. -/
def zeroQuality : QualityMetrics := ⟨0, 0, 0, 0, 0, 0⟩

/-- Zero statistics. -/
def zeroStatistics : ExecutionStatistics := ⟨0, 0, 0, 0, 0, []⟩

/-- Accumulate one step's resource usage into the running total. -/
def addUsage (a b : ResourceUsage) : ResourceUsage :=
  { cpu_cores_used := a.cpu_cores_used + b.cpu_cores_used,
    memory_gb_used := a.memory_gb_used + b.memory_gb_used,
    gpu_units_used := a.gpu_units_used + b.gpu_units_used,
    network_bandwidth_mbps_used :=
      a.network_bandwidth_mbps_used + b.network_bandwidth_mbps_used,
    storage_gb_used := a.storage_gb_used + b.storage_gb_used }

/-- The freshly initialized `ExecutionResult` of the execute functions. -/
def initResult (protocol_name : String) : ExecutionResult :=
  { protocol_name := protocol_name, overall_status := .Running,
    step_results := [], total_execution_time_seconds := 0,
    total_resource_usage := zeroUsage, overall_quality_metrics := zeroQuality,
    execution_statistics := zeroStatistics }

/-- The step loop of `TurbulanceOrchestrator::execute_sequential`: look the
step up, execute it (`?` propagates an executor error out of the whole
run), accumulate, and stop after a `Failed` result. -/
def execSeqGo (env : StageEnv) (steps : List ExecutionStep) :
    List String → ResourceUsage → List StepResult →
    Except String (ResourceUsage × List StepResult)
  | [], usage, acc => .ok (usage, acc)
  | id :: rest, usage, acc =>
    match steps.find? (fun s => s.step_id = id) with
    | none => .error ("Step not found: " ++ id)
    | some step => do
      let r ← executeStep env step
      let usage := addUsage usage r.resource_usage
      let acc := acc ++ [r]
      if r.status = .Failed then .ok (usage, acc)
      else execSeqGo env steps rest usage acc

/-- `TurbulanceOrchestrator::execute_sequential`. -/
def executeSequential (env : StageEnv) (protocol : CompiledProtocol) :
    Except String ExecutionResult := do
  let (usage, results) ←
    execSeqGo env protocol.execution_steps protocol.execution_order zeroUsage []
  .ok { initResult protocol.protocol_name with
        total_resource_usage := usage, step_results := results }

/-- The per-group step resolution of `execute_parallel` (all lookups happen
while the group's futures are being collected, before any is awaited). -/
def resolveGroup (steps : List ExecutionStep) :
    List String → Except String (List ExecutionStep)
  | [] => .ok []
  | id :: rest =>
    match steps.find? (fun s => s.step_id = id) with
    | none => .error ("Step not found: " ++ id)
    | some step => do
      let others ← resolveGroup steps rest
      .ok (step :: others)

/-- `join_all` over one group followed by the collection loop: results are
collected in the group's order and the first executor error propagates. -/
def runGroup (env : StageEnv) : List ExecutionStep →
    Except String (List StepResult)
  | [] => .ok []
  | step :: rest => do
    let r ← executeStep env step
    let others ← runGroup env rest
    .ok (r :: others)

/-- The group loop of `TurbulanceOrchestrator::execute_parallel`. -/
def execParGo (env : StageEnv) (steps : List ExecutionStep) :
    List (List String) → ResourceUsage → List StepResult →
    Except String (ResourceUsage × List StepResult)
  | [], usage, acc => .ok (usage, acc)
  | group :: rest, usage, acc => do
    let gsteps ← resolveGroup steps group
    let rs ← runGroup env gsteps
    let usage := rs.foldl (fun u r => addUsage u r.resource_usage) usage
    execParGo env steps rest usage (acc ++ rs)

/-- `TurbulanceOrchestrator::execute_parallel`: only the steps listed in
`parallel_groups` are ever launched. -/
def executeParallel (env : StageEnv) (protocol : CompiledProtocol) :
    Except String ExecutionResult := do
  let (usage, results) ←
    execParGo env protocol.execution_steps protocol.parallel_groups zeroUsage []
  .ok { initResult protocol.protocol_name with
        total_resource_usage := usage, step_results := results }

/-- `TurbulanceOrchestrator::execute_adaptive`: run Parallel, then rerun
Sequential when realized CPU or memory utilization exceeds 80 percent of
the protocol total. -/
def executeAdaptive (env : StageEnv) (protocol : CompiledProtocol) :
    Except String ExecutionResult := do
  let result ← executeParallel env protocol
  let cpu_util := result.total_resource_usage.cpu_cores_used
    / protocol.total_resource_requirements.cpu_cores
  let memory_util := result.total_resource_usage.memory_gb_used
    / protocol.total_resource_requirements.memory_gb
  if 8/10 < cpu_util ∨ 8/10 < memory_util then
    executeSequential env protocol
  else .ok result

/-- `TurbulanceOrchestrator::execute_optimized`: the metacognitive
optimizer (an external collaborator, modelled in the environment) picks a
strategy string; unknown strings fall back to adaptive. -/
def executeOptimized (env : StageEnv) (protocol : CompiledProtocol) :
    Except String ExecutionResult :=
  let s := env.strategy protocol.execution_steps.length
    protocol.total_resource_requirements
  if s = "parallel" then executeParallel env protocol
  else if s = "sequential" then executeSequential env protocol
  else executeAdaptive env protocol

/-- `TurbulanceOrchestrator::compute_overall_quality_metrics`. -/
def computeOverallQualityMetrics (step_results : List StepResult) :
    QualityMetrics :=
  if step_results.isEmpty then zeroQuality
  else
    let count : ℚ := step_results.length
    { accuracy := (step_results.map (fun r => r.quality_metrics.accuracy)).sum / count,
      completeness := (step_results.map (fun r => r.quality_metrics.completeness)).sum / count,
      relevance := (step_results.map (fun r => r.quality_metrics.relevance)).sum / count,
      confidence := (step_results.map (fun r => r.quality_metrics.confidence)).sum / count,
      novelty := (step_results.map (fun r => r.quality_metrics.novelty)).sum / count,
      coherence := (step_results.map (fun r => r.quality_metrics.coherence)).sum / count }

/-- `TurbulanceOrchestrator::compute_execution_statistics`. -/
def computeExecutionStatistics (step_results : List StepResult)
    (protocol : CompiledProtocol) : ExecutionStatistics :=
  let steps_completed :=
    (step_results.filter (fun r => r.status = .Completed)).length
  let steps_failed :=
    (step_results.filter (fun r => r.status = .Failed)).length
  let parallelization_efficiency : ℚ :=
    if protocol.parallel_groups.isEmpty then 0
    else ((protocol.parallel_groups.map (fun g => g.length)).sum : ℚ)
      / (protocol.execution_steps.length : ℚ)
  let total_estimated_time : ℚ :=
    (protocol.execution_steps.map
      (fun s => s.resource_requirements.estimated_duration_seconds)).sum
  let total_actual_time : ℚ :=
    (step_results.map (fun r => r.execution_time_seconds)).sum
  let resource_utilization_efficiency : ℚ :=
    if 0 < total_actual_time then total_estimated_time / total_actual_time else 0
  let average_step_quality : ℚ :=
    if step_results.isEmpty then 0
    else (step_results.map (fun r =>
      (r.quality_metrics.accuracy + r.quality_metrics.completeness +
       r.quality_metrics.relevance + r.quality_metrics.confidence +
       r.quality_metrics.novelty + r.quality_metrics.coherence) / 6)).sum
      / (step_results.length : ℚ)
  { steps_completed := steps_completed,
    steps_failed := steps_failed,
    parallelization_efficiency := parallelization_efficiency,
    resource_utilization_efficiency := resource_utilization_efficiency,
    average_step_quality := average_step_quality,
    bottleneck_stages :=
      (step_results.filter (fun r => 30 < r.execution_time_seconds)).map
        (fun r => r.step_id) }

/-- `TurbulanceOrchestrator::execute_protocol`: dispatch on the compiled
mode, then finalize status, quality and statistics. -/
def executeProtocol (env : StageEnv) (protocol : CompiledProtocol) :
    Except String ExecutionResult := do
  let result ←
    match protocol.execution_mode with
    | .Sequential => executeSequential env protocol
    | .Parallel => executeParallel env protocol
    | .Adaptive => executeAdaptive env protocol
    | .Optimized => executeOptimized env protocol
  let result := { result with
    total_execution_time_seconds := env.totalElapsed,
    overall_status :=
      if result.step_results.all (fun r => r.status = ExecutionStatus.Completed) then
        ExecutionStatus.Completed
      else ExecutionStatus.Failed }
  let result := { result with
    overall_quality_metrics := computeOverallQualityMetrics result.step_results }
  .ok { result with
    execution_statistics := computeExecutionStatistics result.step_results protocol }

/-- ASCII word character (`\w` of the recognition regexes; the scripts the
claims exercise are ASCII). -/
def isWordChar (c : Char) : Bool := c.isAlphanum || c = '_'

/-- ASCII whitespace (`\s` / `char::is_whitespace` on ASCII input). -/
def isWSChar (c : Char) : Bool := c = ' ' || c = '\t' || c = '\r' || c = '\n'

/-- `str::trim` on a character list. -/
def trimChars (l : List Char) : List Char :=
  ((l.dropWhile isWSChar).reverse.dropWhile isWSChar).reverse

/-- `str::trim` on a string. -/
def trimString (s : String) : String := String.mk (trimChars s.data)

/-- `str::trim_start` length difference gives the indentation count. -/
def indentOf (line : String) : Nat :=
  (line.data.takeWhile isWSChar).length

/-- Drop a literal prefix, or fail. -/
def dropLit : List Char → List Char → Option (List Char)
  | [], l => some l
  | _ :: _, [] => none
  | p :: ps, c :: cs => if p = c then dropLit ps cs else none

/-- Skip zero or more whitespace characters (`\s*`). -/
def skipWS (l : List Char) : List Char := l.dropWhile isWSChar

/-- Require at least one whitespace character, then skip the run (`\s+`). -/
def skipWSPlus (l : List Char) : Option (List Char) :=
  match l with
  | c :: rest => if isWSChar c then some (rest.dropWhile isWSChar) else none
  | [] => none

/-- A maximal nonempty word run (`(\w+)`). -/
def wordRun (l : List Char) : Option (List Char × List Char) :=
  let w := l.takeWhile isWordChar
  if w.isEmpty then none else some (w, l.drop w.length)

/-- A maximal nonempty run of non-quote characters (`([^"]+)`). -/
def nonQuoteRun (l : List Char) : Option (List Char × List Char) :=
  let w := l.takeWhile (fun c => c ≠ '"')
  if w.isEmpty then none else some (w, l.drop w.length)

/-- Try an at-position matcher at every suffix, leftmost first (the
search phase of an unanchored regex). -/
def searchAt {α : Type} (f : List Char → Option α) : List Char → Option α
  | [] => f []
  | c :: rest =>
    match f (c :: rest) with
    | some a => some a
    | none => searchAt f rest

/-- `comment_regex` (`^\s*//.*`) as a matcher. -/
def isCommentLine (line : String) : Bool :=
  match skipWS line.data with
  | '/' :: '/' :: _ => true
  | _ => false

/-- `proposition_regex` (`^proposition\s+(\w+):`), anchored; returns the
captured name. -/
def matchProposition (line : String) : Option String := do
  let r1 ← dropLit "proposition".data line.data
  let r2 ← skipWSPlus r1
  let (name, r3) ← wordRun r2
  match r3 with
  | ':' :: _ => some (String.mk name)
  | _ => none

/-- `hypothesis_regex` (`motion\s+Hypothesis\("([^"]+)"\)`), unanchored. -/
def matchHypothesis (line : String) : Option String :=
  searchAt
    (fun l => do
      let r1 ← dropLit "motion".data l
      let r2 ← skipWSPlus r1
      let r3 ← dropLit "Hypothesis(\"".data r2
      let (h, r4) ← nonQuoteRun r3
      let r5 ← dropLit "\")".data r4
      let _ := r5
      some (String.mk h))
    line.data

/-- `pipeline_stage_regex`
(`(\w+)\s*=\s*pipeline_stage\(\s*"([^"]+)"\s*(?:,\s*\{([^}]*)\})?\s*\)`),
unanchored; returns variable name, stage name and the optional raw config
body.  The config body is captured by `[^}]*`, so it always stops at the
first closing brace. -/
def matchPipelineStage (line : String) :
    Option (String × String × Option String) :=
  searchAt
    (fun l => do
      let (var, r1) ← wordRun l
      let r2 := skipWS r1
      let r3 ← dropLit "=".data r2
      let r4 := skipWS r3
      let r5 ← dropLit "pipeline_stage(".data r4
      let r6 := skipWS r5
      let r7 ← dropLit "\"".data r6
      let (stage, r8) ← nonQuoteRun r7
      let r9 ← dropLit "\"".data r8
      let r10 := skipWS r9
      match r10 with
      | ',' :: r11 =>
        let r12 := skipWS r11
        match r12 with
        | '{' :: r13 =>
          let cfg := r13.takeWhile (fun c => c ≠ '}')
          match r13.drop cfg.length with
          | '}' :: r14 =>
            match skipWS r14 with
            | ')' :: _ => some (String.mk var, String.mk stage, some (String.mk cfg))
            | _ => none
          | _ => none
        | _ => none
      | ')' :: _ => some (String.mk var, String.mk stage, none)
      | _ => none)
    line.data

/-- `function_regex` (`^funxn\s+(\w+)\(([^)]*)\):`), anchored. -/
def matchFunction (line : String) : Option (String × String) := do
  let r1 ← dropLit "funxn".data line.data
  let r2 ← skipWSPlus r1
  let (name, r3) ← wordRun r2
  let r4 ← dropLit "(".data r3
  let params := r4.takeWhile (fun c => c ≠ ')')
  match r4.drop params.length with
  | ')' :: ':' :: _ => some (String.mk name, String.mk params)
  | _ => none

/-- The index of the last colon of `l`, if any. -/
def lastColonIdx (l : List Char) : Option Nat :=
  match (l.reverse.findIdx? (fun c => c = ':')) with
  | some k => some (l.length - 1 - k)
  | none => none

/-- `conditional_regex` (`(given|ensure|alternatively)\s+(.+):`),
unanchored; the greedy `(.+)` captures everything up to the last colon
(needing at least one character before it). -/
def matchConditional (line : String) : Option (String × String) :=
  let tryKw : String → List Char → Option (String × String) := fun kw l => do
    let r1 ← dropLit kw.data l
    let r2 ← skipWSPlus r1
    match lastColonIdx r2 with
    | some j => if 1 ≤ j then some (kw, String.mk (r2.take j)) else none
    | none => none
  searchAt
    (fun l =>
      match tryKw "given" l with
      | some a => some a
      | none =>
        match tryKw "ensure" l with
        | some a => some a
        | none => tryKw "alternatively" l)
    line.data

/-- `data_source_regex` (`(local|domain_expert|external_api)\("([^"]+)"\)`),
unanchored. -/
def matchDataSource (line : String) : Option (String × String) :=
  let tryKw : String → List Char → Option (String × String) := fun kw l => do
    let r1 ← dropLit (kw ++ "(\"").data l
    let (name, r2) ← nonQuoteRun r1
    let r3 ← dropLit "\")".data r2
    let _ := r3
    some (kw, String.mk name)
  searchAt
    (fun l =>
      match tryKw "local" l with
      | some a => some a
      | none =>
        match tryKw "domain_expert" l with
        | some a => some a
        | none => tryKw "external_api" l)
    line.data

/-- `variable_regex` (`(\w+)\s*=\s*(.+)`), unanchored; `\s*` is greedy but
gives back characters so that `(.+)` can take at least one. -/
def matchVariable (line : String) : Option (String × String) :=
  searchAt
    (fun l => do
      let (var, r1) ← wordRun l
      let r2 := skipWS r1
      let r3 ← dropLit "=".data r2
      if r3.isEmpty then none
      else
        let wsRun := (r3.takeWhile isWSChar).length
        let k := min wsRun (r3.length - 1)
        some (String.mk var, String.mk (r3.drop k)))
    line.data

/-- The panic raised by `parse_value` when the trimmed value is a single
quote character: `trimmed[1..trimmed.len()-1]` is the reversed byte range
`1..0`.  A Rust panic aborts the parse; it is modelled as the error channel
of the parser functions. -/
def slicePanicMsg : String := "slice index starts at 1 but ends at 0"

/-- `f64::from_str` on the decimal grammar (optional sign, digits with an
optional fraction, optional exponent).  The special spellings (infinity,
NaN) have no `ℚ` counterpart and no claim exercises them. -/
def parseF64 (s : String) : Option ℚ :=
  let digitsVal : List Char → ℚ :=
    fun l => ((l.foldl (fun n c => n * 10 + (c.toNat - 48)) 0 : Nat) : ℚ)
  let l := s.data
  let (neg, l) :=
    match l with
    | '-' :: rest => (true, rest)
    | '+' :: rest => (false, rest)
    | _ => (false, l)
  let ip := l.takeWhile Char.isDigit
  let r1 := l.drop ip.length
  let (ok1, mant, r2) :=
    match r1 with
    | '.' :: r2 =>
      let fp := r2.takeWhile Char.isDigit
      (!ip.isEmpty || !fp.isEmpty,
       digitsVal ip + digitsVal fp / ((10 : ℚ) ^ fp.length),
       r2.drop fp.length)
    | _ => (!ip.isEmpty, digitsVal ip, r1)
  if !ok1 then none
  else
    match r2 with
    | [] => some (if neg then -mant else mant)
    | e :: r3 =>
      if e = 'e' ∨ e = 'E' then
        let (eneg, r4) :=
          match r3 with
          | '-' :: rest => (true, rest)
          | '+' :: rest => (false, rest)
          | _ => (false, r3)
        let ed := r4.takeWhile Char.isDigit
        if ed.isEmpty ∨ ¬ (r4.drop ed.length).isEmpty then none
        else
          let en := ed.foldl (fun n c => n * 10 + (c.toNat - 48)) 0
          let v := if eneg then mant / ((10 : ℚ) ^ en) else mant * ((10 : ℚ) ^ en)
          some (if neg then -v else v)
      else none

/-- The single-pass bracket-depth and quote-state comma splitter shared by
`parse_config_object` and the array arm of `parse_value`.  `depth` is the
signed bracket depth (`i32` in the source), `esc` the escape flag; every
character, including brackets, quotes and backslashes, is pushed into the
current chunk. -/
def splitTopLevel (content : List Char) : List (List Char) :=
  let rec go : List Char → Int → Bool → Bool → List Char → List (List Char) →
      List (List Char)
    | [], _, _, _, current, acc => acc ++ [current]
    | c :: rest, depth, inQuotes, esc, current, acc =>
      if esc then go rest depth inQuotes false (current ++ [c]) acc
      else if c = '\\' then go rest depth inQuotes true (current ++ [c]) acc
      else if c = '"' then go rest depth (!inQuotes) false (current ++ [c]) acc
      else if (c = '{' ∨ c = '[') ∧ ¬ inQuotes then
        go rest (depth + 1) inQuotes false (current ++ [c]) acc
      else if (c = '}' ∨ c = ']') ∧ ¬ inQuotes then
        go rest (depth - 1) inQuotes false (current ++ [c]) acc
      else if c = ',' ∧ ¬ inQuotes ∧ depth = 0 then
        go rest depth inQuotes false [] (acc ++ [current])
      else go rest depth inQuotes false (current ++ [c]) acc
  go content 0 false false [] []

/-- `str::trim_matches (c)`: strip all leading and trailing copies of one
character. -/
def trimMatchesChar (c : Char) (l : List Char) : List Char :=
  ((l.dropWhile (fun d => d = c)).reverse.dropWhile (fun d => d = c)).reverse

/-- The request type of the merged value parser: `parse_value` itself,
the item loop of its array arm, the chunk loop of `parse_config_object`,
and `parse_config_pair`.  The four mutually recursive source functions are
merged into one fuel-structural function (`parseCore`) because Lean
mutual and well-founded recursion do not reduce definitionally. -/
inductive PReq where
  | val : String → PReq
  | items : List (List Char) → PReq
  | chunks : List (List Char) → List (String × TValue) → PReq
  | pair : List Char → List (String × TValue) → PReq

/-- The result type of the merged value parser. -/
inductive PRes where
  | val : TValue → PRes
  | items : List TValue → PRes
  | config : List (String × TValue) → PRes

/-- The merged `parse_value` / `parse_config_object` / `parse_config_pair`
interpreter.  Every recursive call decrements the fuel; the entry points
pass a quadratic bound that dominates the recursion (every recursion
strictly shrinks the string being parsed), so the fuel-0 arms are
unreachable from them.  The `unreachable` error marks result-constructor
mismatches that cannot occur (each request kind always produces its own
result kind). -/
def parseCore : Nat → PReq → Except String PRes
  | 0, .val s => .ok (.val (.str (trimString s)))
  | 0, .items _ => .ok (.items [])
  | 0, .chunks _ config => .ok (.config config)
  | 0, .pair _ config => .ok (.config config)
  | fuel + 1, .val s =>
    let t := trimChars s.data
    if (t.head? = some '"' ∧ t.getLast? = some '"')
        ∨ (t.head? = some '\'' ∧ t.getLast? = some '\'') then
      if t.length = 1 then .error slicePanicMsg
      else .ok (.val (.str (String.mk (t.drop 1).dropLast)))
    else if t = "true".data then .ok (.val (.bool true))
    else if t = "false".data then .ok (.val (.bool false))
    else
      match parseF64 (String.mk t) with
      | some q => .ok (.val (.num q))
      | none =>
        if t.head? = some '[' ∧ t.getLast? = some ']' then do
          match ← parseCore fuel (.items (splitTopLevel ((t.drop 1).dropLast))) with
          | .items vs => .ok (.val (.arr vs))
          | _ => .error "unreachable"
        else if t.head? = some '{' ∧ t.getLast? = some '}' then do
          match ← parseCore fuel
              (.chunks (splitTopLevel ((t.drop 1).dropLast)) []) with
          | .config config => .ok (.val (.obj config))
          | _ => .error "unreachable"
        else .ok (.val (.str (String.mk t)))
  | _ + 1, .items [] => .ok (.items [])
  | fuel + 1, .items (item :: rest) =>
    if (trimChars item).isEmpty then parseCore fuel (.items rest)
    else do
      match ← parseCore fuel (.val (String.mk (trimChars item))) with
      | .val v =>
        match ← parseCore fuel (.items rest) with
        | .items vs => .ok (.items (v :: vs))
        | _ => .error "unreachable"
      | _ => .error "unreachable"
  | _ + 1, .chunks [] config => .ok (.config config)
  | fuel + 1, .chunks (chunk :: rest) config => do
    match ← parseCore fuel (.pair chunk config) with
    | .config config => parseCore fuel (.chunks rest config)
    | _ => .error "unreachable"
  | fuel + 1, .pair pair config =>
    let pt := trimChars pair
    match pt.findIdx? (fun c => c = ':') with
    | none => .ok (.config config)
    | some i => do
      let key := trimMatchesChar '\'' (trimMatchesChar '"' (trimChars (pt.take i)))
      let value_str := trimChars (pt.drop (i + 1))
      match ← parseCore fuel (.val (String.mk value_str)) with
      | .val value => .ok (.config (insertAL config (String.mk key) value))
      | _ => .error "unreachable"

/-- A fuel that dominates the recursion of `parseCore` on `s`. -/
def parseFuel (s : String) : Nat := (s.length + 2) * (s.length + 2)

/-- `TurbulanceParser::parse_value` at adequate fuel. -/
def parseValue (s : String) : Except String TValue := do
  match ← parseCore (parseFuel s) (.val s) with
  | .val v => .ok v
  | _ => .error "unreachable"

/-- `TurbulanceParser::parse_config_object` at adequate fuel. -/
def parseConfigObject (config_str : String) :
    Except String (List (String × TValue)) := do
  match ← parseCore (parseFuel config_str)
      (.chunks (splitTopLevel config_str.data) []) with
  | .config config => .ok config
  | _ => .error "unreachable"

/-- Split a character list at a separator character (the structural model
of `str::split`). -/
def splitCharOn (sep : Char) : List Char → List (List Char)
  | [] => [[]]
  | c :: rest =>
    let r := splitCharOn sep rest
    if c = sep then [] :: r
    else
      match r with
      | h :: t => (c :: h) :: t
      | [] => [[c]]

/-- `TurbulanceParser::parse_parameter_list`: a plain comma split, trimmed,
empties dropped, every parameter a string value. -/
def parseParameterList (params_str : String) : List TValue :=
  (splitCharOn ',' params_str.data).filterMap
    (fun p =>
      let p := trimChars p
      if p.isEmpty then none else some (TValue.str (String.mk p)))

/-- An empty node skeleton for `parse_line`. -/
def mkNode (nt : NodeType) (line_number : Nat) (content : String)
    (name : Option String) (parameters : List (String × TValue)) :
    TurbulanceNode :=
  { node_type := nt, line_number := line_number, content := content,
    name := name, parameters := parameters, children := [], dependencies := [] }

/-- `TurbulanceParser::parse_line`: the ordered pattern cascade.  The
source signature is `Result<TurbulanceNode>` but no branch constructs an
`Err`; the only possible error of the embedding is the slice panic
escaping from `parse_value` (which in Rust would abort the parse). -/
def parseLine (line : String) (line_number : Nat) :
    Except String TurbulanceNode :=
  if isCommentLine line then
    .ok (mkNode .Comment line_number line none [])
  else
    match matchProposition line with
    | some name => .ok (mkNode .Proposition line_number line (some name) [])
    | none =>
    match matchHypothesis line with
    | some hyp =>
      .ok (mkNode .Hypothesis line_number line none
        [("hypothesis", TValue.str hyp)])
    | none =>
    match matchPipelineStage line with
    | some (var_name, stage_name, config_str) => do
      let parameters := [("stage", TValue.str stage_name)]
      let parameters ←
        match config_str with
        | some cfg =>
          if cfg ≠ "" then do
            let config ← parseConfigObject cfg
            pure (parameters ++ [("config", TValue.obj config)])
          else pure parameters
        | none => pure parameters
      .ok (mkNode .PipelineStage line_number line (some var_name) parameters)
    | none =>
    match matchFunction line with
    | some (func_name, params_str) =>
      let parameters :=
        if params_str ≠ "" then
          [("parameters", TValue.arr (parseParameterList params_str))]
        else []
      .ok (mkNode .Function line_number line (some func_name) parameters)
    | none =>
    match matchConditional line with
    | some (condition_type, condition) =>
      .ok (mkNode .Conditional line_number line none
        [("condition_type", TValue.str condition_type),
         ("condition", TValue.str condition)])
    | none =>
    match matchDataSource line with
    | some (source_type, source_name) =>
      .ok (mkNode .DataSource line_number line (some source_name)
        [("source_type", TValue.str source_type),
         ("source_name", TValue.str source_name)])
    | none =>
    match matchVariable line with
    | some (var_name, value_str) => do
      let value ← parseValue value_str
      .ok (mkNode .Variable line_number line (some var_name)
        [("value", value)])
    | none =>
      .ok (mkNode .Expression line_number line none [])

/-- `str::lines`: split on newlines, dropping one trailing empty piece and
a trailing carriage return per line. -/
def linesOf (s : String) : List String :=
  if s.data.isEmpty then []
  else
    let parts := splitCharOn '\n' s.data
    let parts := if parts.getLast? = some [] then parts.dropLast else parts
    parts.map (fun ln =>
      String.mk (if ln.getLast? = some '\r' then ln.dropLast else ln))

/-- Replace the element at an index (`Vec` index assignment); out-of-range
indices leave the list unchanged. -/
def modifyAt {α : Type} : List α → Nat → (α → α) → List α
  | [], _, _ => []
  | x :: rest, 0, f => f x :: rest
  | x :: rest, i + 1, f => x :: modifyAt rest i f

mutual

/-- `TurbulanceParser::extract_dependencies_from_value`: the bare
identifier heuristic, recursively over arrays, objects and pipeline
calls. -/
def extractDepsFromValue : TValue → List String
  | .str s =>
    if s.data.all (fun c => c.isAlphanum || c = '_')
        ∧ (s.data.head?.map Char.isAlpha).getD false then [s]
    else []
  | .num _ => []
  | .bool _ => []
  | .arr items => extractDepsFromList items
  | .obj kvs => extractDepsFromPairs kvs
  | .pipelineCall _ cfg => extractDepsFromPairs cfg

/-- Dependency extraction over a list of values. -/
def extractDepsFromList : List TValue → List String
  | [] => []
  | v :: rest => extractDepsFromValue v ++ extractDepsFromList rest

/-- Dependency extraction over the values of an object. -/
def extractDepsFromPairs : List (String × TValue) → List String
  | [] => []
  | (_, v) :: rest => extractDepsFromValue v ++ extractDepsFromPairs rest

end

/-- `TurbulanceParser::extract_dependencies`: scan the config object. -/
def extractDeps (parameters : List (String × TValue)) : List String :=
  match lookupAL parameters "config" with
  | some (TValue.obj config) => extractDepsFromPairs config
  | _ => []

/-- The mutable state of the `parse_script` loop.  The two stacks are
kept top-at-head (`Vec::push` is cons, `last()` is `head?`). -/
structure PState where
  nodes : List TurbulanceNode
  propositions : List TurbulanceNode
  pipeline_calls : List TurbulanceNode
  functions : List TurbulanceNode
  data_sources : List TurbulanceNode
  variables_map : List (String × TValue)
  dependencies : List (String × List String)
  context_stack : List Nat
  indentation_stack : List Nat
  current_parent : Option Nat

/-- The initial parse state. -/
def initPState : PState :=
  { nodes := [], propositions := [], pipeline_calls := [], functions := [],
    data_sources := [], variables_map := [], dependencies := [],
    context_stack := [], indentation_stack := [], current_parent := none }

/-- `TurbulanceParser::update_parent_context`: pop both stacks while the
current indentation is at most the recorded one, then the new parent is
the top of the context stack. -/
def updateParent (ctx ind : List Nat) (cur : Nat) :
    List Nat × List Nat × Option Nat :=
  match ind with
  | [] => (ctx, ind, ctx.head?)
  | li :: indRest =>
    if cur ≤ li then updateParent ctx.tail indRest cur
    else (ctx, ind, ctx.head?)

/-- The per-node-type categorization block of the `parse_script` loop. -/
def categorize (st : PState) (node : TurbulanceNode) (indentation : Nat) :
    PState :=
  match node.node_type with
  | .Proposition =>
    { st with context_stack := st.nodes.length :: st.context_stack,
              indentation_stack := indentation :: st.indentation_stack,
              current_parent := some st.nodes.length,
              propositions := st.propositions ++ [node] }
  | .PipelineStage =>
    let st := { st with pipeline_calls := st.pipeline_calls ++ [node] }
    match node.name with
    | some name =>
      let deps := extractDeps node.parameters
      let st := { st with dependencies := insertAL st.dependencies name deps }
      match lookupAL node.parameters "stage" with
      | some (TValue.str stage) =>
        let config :=
          match lookupAL node.parameters "config" with
          | some (TValue.obj cfg) => cfg
          | _ => []
        { st with variables_map :=
            insertAL st.variables_map name (TValue.pipelineCall stage config) }
      | _ => st
    | none => st
  | .Function =>
    { st with context_stack := st.nodes.length :: st.context_stack,
              indentation_stack := indentation :: st.indentation_stack,
              current_parent := some st.nodes.length,
              functions := st.functions ++ [node] }
  | .DataSource => { st with data_sources := st.data_sources ++ [node] }
  | .Variable =>
    match node.name with
    | some name =>
      match lookupAL node.parameters "value" with
      | some value =>
        { st with variables_map := insertAL st.variables_map name value }
      | none => st
    | none => st
  | .Conditional =>
    if 0 < indentation then
      { st with context_stack := st.nodes.length :: st.context_stack,
                indentation_stack := indentation :: st.indentation_stack,
                current_parent := some st.nodes.length }
    else st
  | _ => st

/-- One iteration of the `parse_script` line loop.  A parse panic aborts
the whole parse (the `Err` arm of the source loop catches only
`Result::Err` values, which `parse_line` never produces). -/
def processLine (st : PState) (idx : Nat) (line : String) :
    Except String PState :=
  let line_number := idx + 1
  let trimmed := trimString line
  if trimmed = "" ∨ isCommentLine trimmed then
    if trimmed ≠ "" then
      .ok { st with nodes :=
              st.nodes ++ [mkNode .Comment line_number trimmed none []] }
    else .ok st
  else
    let indentation := indentOf line
    let (ctx, ind, parent) :=
      updateParent st.context_stack st.indentation_stack indentation
    let st := { st with context_stack := ctx, indentation_stack := ind,
                        current_parent := parent }
    match parseLine trimmed line_number with
    | .error e => .error e
    | .ok node =>
      let st :=
        match parent with
        | some pidx =>
          if pidx < st.nodes.length then
            { st with nodes :=
                (modifyAt st.nodes pidx
                  (fun n => { n with children := n.children ++ [node] })) }
          else st
        | none => st
      let st := categorize st node indentation
      .ok { st with nodes := st.nodes ++ [node] }

/-- The line loop of `parse_script`. -/
def parseScriptGo (st : PState) (idx : Nat) :
    List String → Except String PState
  | [] => .ok st
  | line :: rest => do
    let st ← processLine st idx line
    parseScriptGo st (idx + 1) rest

/-- `TurbulanceParser::parse_script`.  Total on every input on which no
`parse_value` slice panic fires; a panic aborts with its message. -/
def parseScript (script_content protocol_name : String) :
    Except String TurbulanceScript := do
  let st ← parseScriptGo initPState 0 (linesOf script_content)
  .ok
    { protocol_name := protocol_name,
      nodes := st.nodes,
      propositions := st.propositions,
      pipeline_calls := st.pipeline_calls,
      functions := st.functions,
      data_sources := st.data_sources,
      variables_map := st.variables_map,
      dependencies := st.dependencies }

/-! ## Generic lemmas about the container model -/

theorem lookupAL_some_mem_keys {α : Type} {l : List (String × α)} {k : String}
    {v : α} (h : lookupAL l k = some v) : k ∈ alKeys l := by
  induction l with
  | nil => simp [lookupAL] at h
  | cons p rest ih =>
    by_cases hk : p.1 = k
    · simp [alKeys, hk.symm]
    · simp only [lookupAL, if_neg hk] at h
      simp [alKeys] at ih ⊢
      exact Or.inr (ih h)

theorem mem_keys_lookupAL_isSome {α : Type} {l : List (String × α)}
    {k : String} (h : k ∈ alKeys l) : ∃ v, lookupAL l k = some v := by
  induction l with
  | nil => simp [alKeys] at h
  | cons p rest ih =>
    by_cases hk : p.1 = k
    · exact ⟨p.2, by simp [lookupAL, hk]⟩
    · simp only [lookupAL, if_neg hk]
      apply ih
      simp [alKeys] at h ⊢
      rcases h with h | h
      · exact absurd h.symm hk
      · exact h

theorem mem_keys_insertAL {α : Type} (l : List (String × α)) (k k' : String)
    (v : α) : k' ∈ alKeys (insertAL l k v) ↔ k' = k ∨ k' ∈ alKeys l := by
  induction l with
  | nil => simp [insertAL, alKeys]
  | cons p rest ih =>
    by_cases hk : p.1 = k
    · subst hk
      simp [insertAL, alKeys]
    · simp only [insertAL, if_neg hk, alKeys, List.map_cons, List.mem_cons]
      rw [alKeys] at ih
      rw [ih]
      tauto

theorem lookupAL_insertAL_self {α : Type} (l : List (String × α)) (k : String)
    (v : α) : lookupAL (insertAL l k v) k = some v := by
  induction l with
  | nil => simp [insertAL, lookupAL]
  | cons p rest ih =>
    by_cases hk : p.1 = k
    · simp [insertAL, hk, lookupAL]
    · simp only [insertAL, if_neg hk, lookupAL, ih, if_neg hk]

theorem lookupAL_insertAL_ne {α : Type} (l : List (String × α)) (k k' : String)
    (v : α) (h : k' ≠ k) :
    lookupAL (insertAL l k v) k' = lookupAL l k' := by
  have hne : ¬ (k = k') := fun hc => h hc.symm
  induction l with
  | nil => simp [insertAL, lookupAL, if_neg hne]
  | cons p rest ih =>
    by_cases hk : p.1 = k
    · have hp : ¬ (p.1 = k') := fun hc => hne (hk ▸ hc)
      simp only [insertAL, if_pos hk, lookupAL, if_neg hne, if_neg hp]
    · simp only [insertAL, if_neg hk, lookupAL, ih]

/-- Keys of a fold of inserts: membership comes from the inserted keys or
the initial map. -/
theorem mem_keys_foldl_insertAL {β : Type} {α : Type} (f : β → String)
    (h : β → α) (steps : List β) (init : List (String × α)) (k : String) :
    k ∈ alKeys (steps.foldl (fun m s => insertAL m (f s) (h s)) init) ↔
      (∃ s ∈ steps, f s = k) ∨ k ∈ alKeys init := by
  induction steps generalizing init with
  | nil => simp
  | cons s rest ih =>
    simp only [List.foldl_cons]
    rw [ih, mem_keys_insertAL]
    constructor
    · rintro (⟨t, ht, hf⟩ | hk | hk)
      · exact Or.inl ⟨t, List.mem_cons_of_mem s ht, hf⟩
      · exact Or.inl ⟨s, List.mem_cons_self s rest, hk.symm⟩
      · exact Or.inr hk
    · rintro (⟨t, ht, hf⟩ | hk)
      · rcases List.mem_cons.mp ht with rfl | ht
        · exact Or.inr (Or.inl hf.symm)
        · exact Or.inl ⟨t, ht, hf⟩
      · exact Or.inr (Or.inr hk)

/-- Values of a fold of inserts come from the inserted values or the
initial map. -/
theorem lookupAL_foldl_insertAL_origin {β : Type} {α : Type} (f : β → String)
    (h : β → α) (steps : List β) (init : List (String × α)) (k : String)
    (v : α) :
    lookupAL (steps.foldl (fun m s => insertAL m (f s) (h s)) init) k = some v →
      (∃ s ∈ steps, v = h s) ∨ lookupAL init k = some v := by
  induction steps generalizing init with
  | nil => intro hl; exact Or.inr hl
  | cons s rest ih =>
    intro hl
    simp only [List.foldl_cons] at hl
    rcases ih (insertAL init (f s) (h s)) hl with hcase | hcase
    · rcases hcase with ⟨t, ht, hv⟩
      exact Or.inl ⟨t, List.mem_cons_of_mem s ht, hv⟩
    · by_cases hk : k = f s
      · subst hk
        rw [lookupAL_insertAL_self] at hcase
        exact Or.inl ⟨s, List.mem_cons_self s rest,
          (Option.some_injective _ hcase).symm⟩
      · rw [lookupAL_insertAL_ne _ _ _ _ hk] at hcase
        exact Or.inr hcase

theorem indexOf_append_left {a : String} {l₁ : List String} (l₂ : List String)
    (h : a ∈ l₁) : (l₁ ++ l₂).indexOf a = l₁.indexOf a := by
  induction l₁ with
  | nil => simp at h
  | cons b rest ih =>
    by_cases hb : a = b
    · subst hb
      simp [List.indexOf_cons_self]
    · have ha : a ∈ rest := by
        rcases List.mem_cons.mp h with h1 | h1
        · exact absurd h1 hb
        · exact h1
      have hba : ¬ (b == a) = true := by
        simp only [beq_iff_eq]
        exact fun hc => hb hc.symm
      simp only [List.cons_append, List.indexOf_cons, hba, Bool.false_eq_true,
        if_false, cond_eq_if]
      rw [ih ha]

theorem indexOf_append_right {a : String} {l₁ : List String} (l₂ : List String)
    (h : a ∉ l₁) : (l₁ ++ l₂).indexOf a = l₁.length + l₂.indexOf a := by
  induction l₁ with
  | nil => simp
  | cons b rest ih =>
    have hb : ¬ (b == a) = true := by
      simp only [beq_iff_eq]
      intro hc
      exact h (hc ▸ List.mem_cons_self b rest)
    have ha : a ∉ rest := fun hc => h (List.mem_cons_of_mem b hc)
    simp only [List.cons_append, List.indexOf_cons, hb, Bool.false_eq_true,
      if_false, cond_eq_if, List.length_cons]
    rw [ih ha]
    omega

/-- In a nodup list split as `l₁ ++ l₂`, anything in `l₁` is indexed before
anything in `l₂`. -/
theorem indexOf_lt_of_append {d id : String} {l₁ l₂ : List String}
    (hnd : (l₁ ++ l₂).Nodup) (hd : d ∈ l₁) (hid : id ∈ l₂) :
    (l₁ ++ l₂).indexOf d < (l₁ ++ l₂).indexOf id := by
  have hidl : id ∉ l₁ := by
    intro hc
    exact (List.disjoint_of_nodup_append hnd) hc hid
  calc (l₁ ++ l₂).indexOf d = l₁.indexOf d := indexOf_append_left l₂ hd
    _ < l₁.length := List.indexOf_lt_length.mpr hd
    _ ≤ l₁.length + l₂.indexOf id := Nat.le_add_right _ _
    _ = (l₁ ++ l₂).indexOf id := (indexOf_append_right l₂ hidl).symm

theorem flatten_filter_sublist (p : List String → Bool)
    (L : List (List String)) :
    List.Sublist (L.filter p).flatten L.flatten := by
  induction L with
  | nil => simp
  | cons b rest ih =>
    by_cases hb : p b
    · simp only [List.filter_cons, hb, if_true, List.flatten_cons]
      exact List.Sublist.append_left ih b
    · simp only [List.filter_cons, hb, Bool.false_eq_true, if_false,
        List.flatten_cons]
      exact ih.trans (List.sublist_append_right b rest.flatten)

theorem foldl_max_init_le (l : List ℚ) (a : ℚ) : a ≤ l.foldl max a := by
  induction l generalizing a with
  | nil => simp
  | cons b rest ih =>
    simp only [List.foldl_cons]
    exact le_trans (le_max_left a b) (ih (max a b))

theorem foldl_max_le {l : List ℚ} {x : ℚ} (hx : x ∈ l) (a : ℚ) :
    x ≤ l.foldl max a := by
  induction l generalizing a with
  | nil => simp at hx
  | cons b rest ih =>
    simp only [List.foldl_cons]
    rcases List.mem_cons.mp hx with rfl | hx
    · exact le_trans (le_max_right a x) (foldl_max_init_le rest (max a x))
    · exact ih hx (max a b)

theorem foldl_max_mem (l : List ℚ) (a : ℚ) :
    l.foldl max a = a ∨ l.foldl max a ∈ l := by
  induction l generalizing a with
  | nil => simp
  | cons b rest ih =>
    simp only [List.foldl_cons]
    rcases ih (max a b) with h | h
    · rcases max_choice a b with hm | hm
      · exact Or.inl (h.trans hm)
      · refine Or.inr ?_
        rw [h, hm]
        exact List.mem_cons_self b rest
    · exact Or.inr (List.mem_cons_of_mem b h)

/-! ## Concrete fixtures for witnesses and counterexamples -/

theorem selId_valid : SelValid selId := fun l => List.Perm.refl l

theorem selRev_valid : SelValid selRev := fun l => List.reverse_perm l

/-- A pipeline-stage node fixture (what the parser produces for a
`var = pipeline_stage("stage", {...})` line, dependencies resolved). -/
def mkPipelineNode (name stage : String) (deps : List String) :
    TurbulanceNode :=
  { node_type := .PipelineStage, line_number := 1, content := "",
    name := some name, parameters := [("stage", TValue.str stage)],
    children := [], dependencies := deps }

/-- A script fixture around a list of pipeline nodes. -/
def mkScript (pname : String) (nodes : List TurbulanceNode) :
    TurbulanceScript :=
  { protocol_name := pname, nodes := nodes, propositions := [],
    pipeline_calls := nodes, functions := [], data_sources := [],
    variables_map := [], dependencies := [] }

/-- A strictly linear chain of three dependent stages. -/
def chainScript : TurbulanceScript :=
  mkScript "p" [mkPipelineNode "x" "query_processor" [],
                mkPipelineNode "y" "semantic_atdb" ["x"],
                mkPipelineNode "z" "domain_knowledge" ["y"]]

/-- The natural key order of the chain script's dependency graph. -/
def chainKo : List String := ["p_x", "p_y", "p_z"]

/-- Three mutually independent pipeline stages. -/
def indep3Script : TurbulanceScript :=
  mkScript "p" [mkPipelineNode "a" "query_processor" [],
                mkPipelineNode "b" "semantic_atdb" [],
                mkPipelineNode "c" "domain_knowledge" []]

/-- The natural key order of the independent script's graph. -/
def indep3Ko : List String := ["p_a", "p_b", "p_c"]

/-- Two mutually dependent stages: `a` depends on `b`, `b` on `a`. -/
def cycScript : TurbulanceScript :=
  mkScript "p" [mkPipelineNode "a" "query_processor" ["b"],
                mkPipelineNode "b" "semantic_atdb" ["a"]]

/-- The natural key order of the cyclic script's graph. -/
def cycKo : List String := ["p_a", "p_b"]

/-- Two pipeline-stage nodes with the same variable name. -/
def dupScript : TurbulanceScript :=
  mkScript "p" [mkPipelineNode "x" "query_processor" [],
                mkPipelineNode "x" "semantic_atdb" []]

/-- Two independent stages, used for the determinism counterexample. -/
def twoIndepScript : TurbulanceScript :=
  mkScript "p" [mkPipelineNode "a" "query_processor" [],
                mkPipelineNode "b" "semantic_atdb" []]

/-- A placeholder protocol for total projection out of `Except`. -/
def emptyProtocol : CompiledProtocol :=
  { protocol_name := "", execution_steps := [],
    execution_mode := .Sequential,
    total_resource_requirements := defaultRequirements,
    dependency_graph := [], execution_order := [], parallel_groups := [] }

/-- Total projection of a compilation result. -/
def protoOf (e : Except String CompiledProtocol) : CompiledProtocol :=
  match e with
  | .ok p => p
  | .error _ => emptyProtocol

/-- A bare execution step fixture with a given cpu requirement. -/
def mkCpuStep (id : String) (cpu : ℚ) : ExecutionStep :=
  { step_id := id, stage_name := id, variable_name := id, parameters := [],
    dependencies := [],
    resource_requirements := ⟨cpu, 1, 0, 1, 10, 1⟩,
    line_number := 1, priority := 1, timeout_seconds := 30 }

/-- Steps requiring 2, 3 and 1 CPU cores (the spec's aggregation example). -/
def c6steps : List ExecutionStep :=
  [mkCpuStep "s1" 2, mkCpuStep "s2" 3, mkCpuStep "s3" 1]

/-- A `foldl max 0` over a nonempty list of nonnegatives is attained. -/
theorem foldl_max_zero_mem (l : List ℚ) (hne : l ≠ [])
    (hpos : ∀ x ∈ l, 0 ≤ x) : l.foldl max 0 ∈ l := by
  rcases foldl_max_mem l 0 with h | h
  · rcases l with _ | ⟨x, rest⟩
    · exact absurd rfl hne
    · have hx : x ≤ (x :: rest).foldl max 0 :=
        foldl_max_le (List.mem_cons_self x rest) 0
      rw [h] at hx
      have hx0 : 0 ≤ x := hpos x (List.mem_cons_self x rest)
      have : x = 0 := le_antisymm hx hx0
      rw [h, ← this]
      exact List.mem_cons_self x rest
  · exact h

/-- C6: total resource aggregation matches the execution mode: in Parallel
mode the cpu, memory, gpu and network fields are the maximum over the
steps and storage is summed; in Sequential mode the four fields are the
arithmetic mean and duration is summed; in Adaptive and Optimized mode
every field is the arithmetic mean of the Parallel and Sequential
aggregates; on steps requiring 2, 3 and 1 cpu cores the Parallel total is
3 and the Sequential total is 2. -/
theorem total_resources_follow_mode (steps : List ExecutionStep)
    (hne : steps ≠ [])
    (hpos : ∀ s ∈ steps, 0 ≤ s.resource_requirements.cpu_cores ∧
      0 ≤ s.resource_requirements.memory_gb ∧
      0 ≤ s.resource_requirements.gpu_units ∧
      0 ≤ s.resource_requirements.network_bandwidth_mbps) :
    ((calcTotalResources steps .Parallel).cpu_cores
        ∈ steps.map (fun s => s.resource_requirements.cpu_cores) ∧
      ∀ s ∈ steps, s.resource_requirements.cpu_cores ≤
        (calcTotalResources steps .Parallel).cpu_cores) ∧
    ((calcTotalResources steps .Parallel).memory_gb
        ∈ steps.map (fun s => s.resource_requirements.memory_gb) ∧
      ∀ s ∈ steps, s.resource_requirements.memory_gb ≤
        (calcTotalResources steps .Parallel).memory_gb) ∧
    ((calcTotalResources steps .Parallel).gpu_units
        ∈ steps.map (fun s => s.resource_requirements.gpu_units) ∧
      ∀ s ∈ steps, s.resource_requirements.gpu_units ≤
        (calcTotalResources steps .Parallel).gpu_units) ∧
    ((calcTotalResources steps .Parallel).network_bandwidth_mbps
        ∈ steps.map (fun s => s.resource_requirements.network_bandwidth_mbps) ∧
      ∀ s ∈ steps, s.resource_requirements.network_bandwidth_mbps ≤
        (calcTotalResources steps .Parallel).network_bandwidth_mbps) ∧
    (calcTotalResources steps .Parallel).storage_gb
      = (steps.map (fun s => s.resource_requirements.storage_gb)).sum ∧
    (calcTotalResources steps .Sequential).cpu_cores
      = (steps.map (fun s => s.resource_requirements.cpu_cores)).sum
        / (steps.length : ℚ) ∧
    (calcTotalResources steps .Sequential).memory_gb
      = (steps.map (fun s => s.resource_requirements.memory_gb)).sum
        / (steps.length : ℚ) ∧
    (calcTotalResources steps .Sequential).gpu_units
      = (steps.map (fun s => s.resource_requirements.gpu_units)).sum
        / (steps.length : ℚ) ∧
    (calcTotalResources steps .Sequential).network_bandwidth_mbps
      = (steps.map (fun s => s.resource_requirements.network_bandwidth_mbps)).sum
        / (steps.length : ℚ) ∧
    (calcTotalResources steps .Sequential).estimated_duration_seconds
      = (steps.map
          (fun s => s.resource_requirements.estimated_duration_seconds)).sum ∧
    (∀ m, m = ExecutionMode.Adaptive ∨ m = ExecutionMode.Optimized →
      (calcTotalResources steps m).cpu_cores
          = ((calcTotalResources steps .Parallel).cpu_cores
            + (calcTotalResources steps .Sequential).cpu_cores) / 2 ∧
      (calcTotalResources steps m).memory_gb
          = ((calcTotalResources steps .Parallel).memory_gb
            + (calcTotalResources steps .Sequential).memory_gb) / 2 ∧
      (calcTotalResources steps m).gpu_units
          = ((calcTotalResources steps .Parallel).gpu_units
            + (calcTotalResources steps .Sequential).gpu_units) / 2 ∧
      (calcTotalResources steps m).network_bandwidth_mbps
          = ((calcTotalResources steps .Parallel).network_bandwidth_mbps
            + (calcTotalResources steps .Sequential).network_bandwidth_mbps) / 2 ∧
      (calcTotalResources steps m).estimated_duration_seconds
          = ((calcTotalResources steps .Parallel).estimated_duration_seconds
            + (calcTotalResources steps .Sequential).estimated_duration_seconds)
            / 2 ∧
      (calcTotalResources steps m).storage_gb
          = ((calcTotalResources steps .Parallel).storage_gb
            + (calcTotalResources steps .Sequential).storage_gb) / 2) ∧
    (calcTotalResources c6steps .Parallel).cpu_cores = 3 ∧
    (calcTotalResources c6steps .Sequential).cpu_cores = 2 := by
  have hmapne : ∀ (f : ExecutionStep → ℚ), steps.map f ≠ [] := by
    intro f hc
    exact hne (List.map_eq_nil_iff.mp hc)
  refine ⟨⟨?_, ?_⟩, ⟨?_, ?_⟩, ⟨?_, ?_⟩, ⟨?_, ?_⟩, rfl, rfl, rfl, rfl, rfl, rfl,
    ?_,
    by norm_num [calcTotalResources, totalResourcesParallel, c6steps, mkCpuStep],
    by norm_num [calcTotalResources, totalResourcesSequential, c6steps,
      mkCpuStep]⟩
  · exact foldl_max_zero_mem _ (hmapne _)
      (by rintro x hx
          rcases List.mem_map.mp hx with ⟨s, hs, rfl⟩
          exact (hpos s hs).1)
  · intro s hs
    exact foldl_max_le (List.mem_map_of_mem _ hs) 0
  · exact foldl_max_zero_mem _ (hmapne _)
      (by rintro x hx
          rcases List.mem_map.mp hx with ⟨s, hs, rfl⟩
          exact (hpos s hs).2.1)
  · intro s hs
    exact foldl_max_le (List.mem_map_of_mem _ hs) 0
  · exact foldl_max_zero_mem _ (hmapne _)
      (by rintro x hx
          rcases List.mem_map.mp hx with ⟨s, hs, rfl⟩
          exact (hpos s hs).2.2.1)
  · intro s hs
    exact foldl_max_le (List.mem_map_of_mem _ hs) 0
  · exact foldl_max_zero_mem _ (hmapne _)
      (by rintro x hx
          rcases List.mem_map.mp hx with ⟨s, hs, rfl⟩
          exact (hpos s hs).2.2.2)
  · intro s hs
    exact foldl_max_le (List.mem_map_of_mem _ hs) 0
  · rintro m (rfl | rfl) <;>
      refine ⟨rfl, rfl, rfl, rfl, rfl, ?_⟩ <;>
      · show (totalResourcesParallel steps).storage_gb
          = ((totalResourcesParallel steps).storage_gb
            + (totalResourcesSequential steps).storage_gb) / 2
        have hs : (totalResourcesSequential steps).storage_gb
            = (totalResourcesParallel steps).storage_gb := rfl
        rw [hs]
        ring

/-- Witness for C6 at the concrete 2, 3, 1 steps. -/
theorem total_resources_follow_mode_witness :
    (calcTotalResources c6steps .Parallel).cpu_cores = 3 ∧
    (calcTotalResources c6steps .Sequential).cpu_cores = 2 := by
  have h := total_resources_follow_mode c6steps
    (List.cons_ne_nil _ _) (by decide)
  obtain ⟨-, -, -, -, -, -, -, -, -, -, -, h12, h13⟩ := h
  exact ⟨h12, h13⟩

/-! ## The execution-plan invariants -/

/-- The batch layering produced by the ready-set loop: each batch's
dependencies lie entirely in the completed set accumulated before it. -/
def Layered (g : List (String × List String)) :
    List String → List (List String) → Prop
  | _, [] => True
  | completed, b :: rest =>
    (∀ id ∈ b, ∀ d ∈ depsOf g id, d ∈ completed) ∧
    Layered g (completed ++ b) rest

/-- Every successful run of the ready-set loop decomposes into layered
batches: the order is their concatenation, the parallel groups are the
batches with more than one member, and the order is a permutation of the
remaining set. -/
theorem planLoop_ok {g : List (String × List String)}
    {sel : List String → List String} (hsel : SelValid sel) :
    ∀ (fuel : Nat) {remaining completed : List String}
      {ord : List String} {grps : List (List String)},
      planLoop g sel fuel remaining completed = .ok (ord, grps) →
      ∃ batches : List (List String),
        ord = batches.flatten ∧
        grps = batches.filter (fun b => decide (1 < b.length)) ∧
        ord.Perm remaining ∧
        Layered g completed batches := by
  intro fuel
  induction fuel with
  | zero =>
    intro remaining completed ord grps h
    simp only [planLoop] at h
    by_cases he : remaining.isEmpty
    · rw [if_pos he] at h
      obtain ⟨rfl, rfl⟩ : ord = [] ∧ grps = [] := by
        refine ⟨?_, ?_⟩ <;> cases h <;> rfl
      exact ⟨[], rfl, rfl, by simp [List.isEmpty_iff.mp he], trivial⟩
    · rw [if_neg he] at h
      exact absurd h (by simp)
  | succ fuel ih =>
    intro remaining completed ord grps h
    simp only [planLoop] at h
    by_cases he : remaining.isEmpty
    · rw [if_pos he] at h
      obtain ⟨rfl, rfl⟩ : ord = [] ∧ grps = [] := by
        refine ⟨?_, ?_⟩ <;> cases h <;> rfl
      exact ⟨[], rfl, rfl, by simp [List.isEmpty_iff.mp he], trivial⟩
    · rw [if_neg he] at h
      by_cases hre : (remaining.filter (isReady g completed)).isEmpty
      · rw [if_pos hre] at h
        exact absurd h (by simp)
      · rw [if_neg hre] at h
        cases hrec : planLoop g sel fuel
            (sel (remaining.filter
              (fun id => decide (id ∉ remaining.filter (isReady g completed)))))
            (completed ++ remaining.filter (isReady g completed)) with
        | error e =>
          rw [hrec] at h
          exact absurd h (by simp [Bind.bind, Except.bind])
        | ok pr =>
          rw [hrec] at h
          obtain ⟨ord', grps'⟩ := pr
          simp only [Bind.bind, Except.bind, Except.ok.injEq] at h
          obtain ⟨rfl, rfl⟩ : ord = remaining.filter (isReady g completed) ++ ord' ∧
              grps = (if 1 < (remaining.filter (isReady g completed)).length then
                remaining.filter (isReady g completed) :: grps' else grps') := by
            have h1 := congrArg Prod.fst h
            have h2 := congrArg Prod.snd h
            exact ⟨h1.symm, h2.symm⟩
          obtain ⟨batches', hord', hgrps', hperm', hlay'⟩ := ih hrec
          refine ⟨remaining.filter (isReady g completed) :: batches', ?_, ?_, ?_, ?_⟩
          · simp [hord']
          · rw [List.filter_cons]
            by_cases hlen : 1 < (remaining.filter (isReady g completed)).length
            · simp [hlen, hgrps']
            · simp [hlen, hgrps']
          · have hcon : remaining.filter
                (fun id => decide (id ∉ remaining.filter (isReady g completed)))
                = remaining.filter (fun id => !(isReady g completed id)) := by
              apply List.filter_congr
              intro x hx
              by_cases hp : isReady g completed x
              · simp [hp, List.mem_filter, hx]
              · simp [hp, List.mem_filter]
            have hmid : ord'.Perm
                (remaining.filter (fun id => !(isReady g completed id))) := by
              rw [← hcon]
              exact hperm'.trans (hsel _)
            exact (List.Perm.append_left _ hmid).trans
              (List.filter_append_perm _ remaining)
          · refine ⟨?_, hlay'⟩
            intro id hid d hd
            have := (List.mem_filter.mp hid).2
            unfold isReady at this
            rw [List.all_eq_true] at this
            have := this d hd
            simpa using this

/-- A valid topological sort: every dependency of a listed step is listed
strictly earlier. -/
def TopoSorted (g : List (String × List String)) (order : List String) : Prop :=
  ∀ id ∈ order, ∀ d ∈ depsOf g id, d ∈ order ∧
    order.indexOf d < order.indexOf id

/-- Layered batches over a completed prefix yield dependencies strictly
earlier in the concatenated list. -/
theorem layered_topo {g : List (String × List String)} :
    ∀ (batches : List (List String)) (completed : List String),
      Layered g completed batches →
      (completed ++ batches.flatten).Nodup →
      ∀ id ∈ batches.flatten, ∀ d ∈ depsOf g id,
        d ∈ completed ++ batches.flatten ∧
        (completed ++ batches.flatten).indexOf d
          < (completed ++ batches.flatten).indexOf id := by
  intro batches
  induction batches with
  | nil => intro completed _ _ id hid; simp at hid
  | cons b rest ih =>
    intro completed hlay hnd id hid d hd
    obtain ⟨hb, hrest⟩ := hlay
    rw [List.flatten_cons] at hid ⊢
    rcases List.mem_append.mp hid with hidb | hidr
    · have hdc : d ∈ completed := hb id hidb d hd
      constructor
      · exact List.mem_append_left _ hdc
      · have hidr2 : id ∈ b ++ rest.flatten := List.mem_append_left _ hidb
        exact indexOf_lt_of_append (by simpa using hnd) hdc hidr2
    · have hnd2 : ((completed ++ b) ++ rest.flatten).Nodup := by
        simpa [List.append_assoc] using hnd
      have := ih (completed ++ b) hrest hnd2 id hidr d hd
      rw [List.append_assoc] at this
      simpa [List.append_assoc] using this

/-- Permutation-stable determinism of the ready-set loop: two successful
runs from permuted remaining sets and permutation-equivalent completed
sets produce permuted orders and pairwise-permuted group lists. -/
theorem planLoop_perm {g : List (String × List String)}
    {sel₁ sel₂ : List String → List String}
    (hsel₁ : SelValid sel₁) (hsel₂ : SelValid sel₂) :
    ∀ (fuel : Nat) {rem₁ rem₂ comp₁ comp₂ : List String}
      {ord₁ ord₂ : List String} {grps₁ grps₂ : List (List String)},
      rem₁.Perm rem₂ → comp₁.Perm comp₂ →
      planLoop g sel₁ fuel rem₁ comp₁ = .ok (ord₁, grps₁) →
      planLoop g sel₂ fuel rem₂ comp₂ = .ok (ord₂, grps₂) →
      ord₁.Perm ord₂ ∧ List.Forall₂ List.Perm grps₁ grps₂ := by
  intro fuel
  induction fuel with
  | zero =>
    intro rem₁ rem₂ comp₁ comp₂ ord₁ ord₂ grps₁ grps₂ hrem _ h₁ h₂
    simp only [planLoop] at h₁ h₂
    by_cases he₁ : rem₁.isEmpty
    · have he₂ : rem₂.isEmpty := by
        rw [List.isEmpty_iff] at he₁ ⊢
        exact List.Perm.eq_nil (he₁ ▸ hrem.symm)
      rw [if_pos he₁] at h₁
      rw [if_pos he₂] at h₂
      cases h₁; cases h₂
      exact ⟨List.Perm.refl _, List.Forall₂.nil⟩
    · rw [if_neg he₁] at h₁
      exact absurd h₁ (by simp)
  | succ fuel ih =>
    intro rem₁ rem₂ comp₁ comp₂ ord₁ ord₂ grps₁ grps₂ hrem hcomp h₁ h₂
    simp only [planLoop] at h₁ h₂
    have hprd : ∀ x ∈ rem₁, isReady g comp₁ x = isReady g comp₂ x := by
      intro x _
      unfold isReady
      rcases hb : (depsOf g x).all (fun dep => decide (dep ∈ comp₁)) with _ | _ <;>
        rcases hb2 : (depsOf g x).all (fun dep => decide (dep ∈ comp₂)) with _ | _
      · rfl
      · exfalso
        rw [List.all_eq_true] at hb2
        rw [List.all_eq_false] at hb
        obtain ⟨d, hd, hdn⟩ := hb
        have := hb2 d hd
        simp only [decide_eq_true_eq] at this hdn
        exact hdn (hcomp.mem_iff.mpr this)
      · exfalso
        rw [List.all_eq_true] at hb
        rw [List.all_eq_false] at hb2
        obtain ⟨d, hd, hdn⟩ := hb2
        have := hb d hd
        simp only [decide_eq_true_eq] at this hdn
        exact hdn (hcomp.mem_iff.mp this)
      · rfl
    have hready : (rem₁.filter (isReady g comp₁)).Perm
        (rem₂.filter (isReady g comp₂)) := by
      rw [List.filter_congr hprd]
      exact hrem.filter _
    by_cases he₁ : rem₁.isEmpty
    · have he₂ : rem₂.isEmpty := by
        rw [List.isEmpty_iff] at he₁ ⊢
        exact List.Perm.eq_nil (he₁ ▸ hrem.symm)
      rw [if_pos he₁] at h₁
      rw [if_pos he₂] at h₂
      cases h₁; cases h₂
      exact ⟨List.Perm.refl _, List.Forall₂.nil⟩
    · have he₂ : ¬ rem₂.isEmpty := by
        rw [List.isEmpty_iff] at he₁ ⊢
        intro hc
        exact he₁ (List.Perm.eq_nil (hc ▸ hrem))
      rw [if_neg he₁] at h₁
      rw [if_neg he₂] at h₂
      by_cases hre₁ : (rem₁.filter (isReady g comp₁)).isEmpty
      · rw [if_pos hre₁] at h₁
        exact absurd h₁ (by simp)
      · have hre₂ : ¬ (rem₂.filter (isReady g comp₂)).isEmpty := by
          rw [List.isEmpty_iff] at hre₁ ⊢
          intro hc
          exact hre₁ (List.Perm.eq_nil (hc ▸ hready))
        rw [if_neg hre₁] at h₁
        rw [if_neg hre₂] at h₂
        cases hrec₁ : planLoop g sel₁ fuel
            (sel₁ (rem₁.filter (fun id => decide (id ∉ rem₁.filter (isReady g comp₁)))))
            (comp₁ ++ rem₁.filter (isReady g comp₁)) with
        | error e =>
          rw [hrec₁] at h₁
          exact absurd h₁ (by simp [Bind.bind, Except.bind])
        | ok pr₁ =>
          cases hrec₂ : planLoop g sel₂ fuel
              (sel₂ (rem₂.filter (fun id => decide (id ∉ rem₂.filter (isReady g comp₂)))))
              (comp₂ ++ rem₂.filter (isReady g comp₂)) with
          | error e =>
            rw [hrec₂] at h₂
            exact absurd h₂ (by simp [Bind.bind, Except.bind])
          | ok pr₂ =>
            rw [hrec₁] at h₁
            rw [hrec₂] at h₂
            obtain ⟨ord₁', grps₁'⟩ := pr₁
            obtain ⟨ord₂', grps₂'⟩ := pr₂
            simp only [Bind.bind, Except.bind, Except.ok.injEq] at h₁ h₂
            have hrest : (rem₁.filter
                (fun id => decide (id ∉ rem₁.filter (isReady g comp₁)))).Perm
                (rem₂.filter (fun id => decide (id ∉ rem₂.filter (isReady g comp₂)))) := by
              have hcon₁ : rem₁.filter
                  (fun id => decide (id ∉ rem₁.filter (isReady g comp₁)))
                  = rem₁.filter (fun id => !(isReady g comp₂ id)) := by
                apply List.filter_congr
                intro x hx
                rw [← hprd x hx]
                by_cases hp : isReady g comp₁ x
                · simp [hp, List.mem_filter, hx]
                · simp [hp, List.mem_filter]
              have hcon₂ : rem₂.filter
                  (fun id => decide (id ∉ rem₂.filter (isReady g comp₂)))
                  = rem₂.filter (fun id => !(isReady g comp₂ id)) := by
                apply List.filter_congr
                intro x hx
                by_cases hp : isReady g comp₂ x
                · simp [hp, List.mem_filter, hx]
                · simp [hp, List.mem_filter]
              rw [hcon₁, hcon₂]
              exact hrem.filter _
            have ihres := ih ((hsel₁ _).trans (hrest.trans (hsel₂ _).symm))
                (hcomp.append hready) hrec₁ hrec₂
            obtain ⟨hordp, hgrpsp⟩ := ihres
            obtain ⟨rfl, rfl⟩ : ord₁ = rem₁.filter (isReady g comp₁) ++ ord₁' ∧
                grps₁ = (if 1 < (rem₁.filter (isReady g comp₁)).length then
                  rem₁.filter (isReady g comp₁) :: grps₁' else grps₁') :=
              ⟨(congrArg Prod.fst h₁).symm, (congrArg Prod.snd h₁).symm⟩
            obtain ⟨rfl, rfl⟩ : ord₂ = rem₂.filter (isReady g comp₂) ++ ord₂' ∧
                grps₂ = (if 1 < (rem₂.filter (isReady g comp₂)).length then
                  rem₂.filter (isReady g comp₂) :: grps₂' else grps₂') :=
              ⟨(congrArg Prod.fst h₂).symm, (congrArg Prod.snd h₂).symm⟩
            refine ⟨hready.append hordp, ?_⟩
            have hlen : (rem₁.filter (isReady g comp₁)).length
                = (rem₂.filter (isReady g comp₂)).length := hready.length_eq
            by_cases hl : 1 < (rem₁.filter (isReady g comp₁)).length
            · rw [if_pos hl, if_pos (hlen ▸ hl)]
              exact List.Forall₂.cons hready hgrpsp
            · rw [if_neg hl, if_neg (hlen ▸ hl)]
              exact hgrpsp

/-- The do-block of `compile_protocol`, written as explicit binds. -/
theorem compileProtocol_eq (script : TurbulanceScript) (ko : List String)
    (sel : List String → List String) :
    compileProtocol script ko sel =
      (extractExecutionSteps script).bind (fun steps =>
        (determineExecutionMode steps (buildDependencyGraph steps) ko).bind
          (fun mode =>
            (calcExecutionPlan steps (buildDependencyGraph steps) sel).bind
              (fun og =>
                Except.ok
                  { protocol_name := script.protocol_name,
                    execution_steps := steps,
                    execution_mode := mode,
                    total_resource_requirements := calcTotalResources steps mode,
                    dependency_graph := buildDependencyGraph steps,
                    execution_order := og.1,
                    parallel_groups := og.2 }))) := rfl

/-- Inversion of a successful compilation into its four stages. -/
theorem compileProtocol_ok_inv {script : TurbulanceScript} {ko : List String}
    {sel : List String → List String} {p : CompiledProtocol}
    (h : compileProtocol script ko sel = .ok p) :
    ∃ steps mode ord grps,
      extractExecutionSteps script = .ok steps ∧
      determineExecutionMode steps (buildDependencyGraph steps) ko = .ok mode ∧
      calcExecutionPlan steps (buildDependencyGraph steps) sel = .ok (ord, grps) ∧
      p = { protocol_name := script.protocol_name,
            execution_steps := steps,
            execution_mode := mode,
            total_resource_requirements := calcTotalResources steps mode,
            dependency_graph := buildDependencyGraph steps,
            execution_order := ord,
            parallel_groups := grps } := by
  rw [compileProtocol_eq] at h
  obtain ⟨steps, hex⟩ : ∃ steps, extractExecutionSteps script = .ok steps := by
    cases hex : extractExecutionSteps script with
    | error e => rw [hex] at h; exact absurd h (by simp [Except.bind])
    | ok s => exact ⟨s, rfl⟩
  rw [hex] at h
  simp only [Except.bind] at h
  obtain ⟨mode, hm⟩ :
      ∃ mode, determineExecutionMode steps (buildDependencyGraph steps) ko
        = .ok mode := by
    cases hm : determineExecutionMode steps (buildDependencyGraph steps) ko with
    | error e => rw [hm] at h; exact absurd h (by simp [Except.bind])
    | ok m => exact ⟨m, rfl⟩
  rw [hm] at h
  simp only [Except.bind] at h
  obtain ⟨og, hp⟩ :
      ∃ og, calcExecutionPlan steps (buildDependencyGraph steps) sel
        = .ok og := by
    cases hp : calcExecutionPlan steps (buildDependencyGraph steps) sel with
    | error e => rw [hp] at h; exact absurd h (by simp [Except.bind])
    | ok og => exact ⟨og, rfl⟩
  rw [hp] at h
  simp only [Except.bind, Except.ok.injEq] at h
  exact ⟨steps, mode, og.1, og.2, hex, hm, hp, h.symm⟩

/-- Forward construction of a compilation from its stage results. -/
theorem compileProtocol_ok_of {script : TurbulanceScript} {ko : List String}
    {sel : List String → List String} {steps : List ExecutionStep}
    {mode : ExecutionMode} {ord : List String} {grps : List (List String)}
    (hex : extractExecutionSteps script = .ok steps)
    (hm : determineExecutionMode steps (buildDependencyGraph steps) ko = .ok mode)
    (hp : calcExecutionPlan steps (buildDependencyGraph steps) sel
      = .ok (ord, grps)) :
    compileProtocol script ko sel =
      .ok { protocol_name := script.protocol_name,
            execution_steps := steps,
            execution_mode := mode,
            total_resource_requirements := calcTotalResources steps mode,
            dependency_graph := buildDependencyGraph steps,
            execution_order := ord,
            parallel_groups := grps } := by
  rw [compileProtocol_eq, hex]
  simp only [Except.bind]
  rw [hm]
  simp only [Except.bind]
  rw [hp]

/-- C1: for every script that compiles successfully, `execution_order` is
a valid topological sort of `dependency_graph` (dependencies appear
strictly earlier), every step id appears exactly once in the order (and
the order lists only step ids), and the concatenation of
`parallel_groups` — which contain only batches with more than one
member — is a subsequence of `execution_order` preserving relative
order. -/
theorem compiled_protocol_plan_invariants (script : TurbulanceScript)
    (ko : List String) (sel : List String → List String)
    (p : CompiledProtocol) (hsel : SelValid sel)
    (h : compileProtocol script ko sel = .ok p) :
    TopoSorted p.dependency_graph p.execution_order ∧
    p.execution_order.Nodup ∧
    (∀ s ∈ p.execution_steps, p.execution_order.count s.step_id = 1) ∧
    (∀ id ∈ p.execution_order, ∃ s ∈ p.execution_steps, s.step_id = id) ∧
    List.Sublist p.parallel_groups.flatten p.execution_order ∧
    (∀ gp ∈ p.parallel_groups, 1 < gp.length) := by
  obtain ⟨steps, mode, ord, grps, hex, hm, hp, rfl⟩ := compileProtocol_ok_inv h
  simp only
  unfold calcExecutionPlan at hp
  obtain ⟨batches, hord, hgrps, hperm, hlay⟩ := planLoop_ok hsel _ hp
  have hdperm : ord.Perm ((steps.map (fun s => s.step_id)).dedup) :=
    hperm.trans (hsel _)
  have hnd : ord.Nodup :=
    hdperm.nodup_iff.mpr (steps.map (fun s => s.step_id)).nodup_dedup
  have hmem : ∀ id, id ∈ ord ↔ id ∈ steps.map (fun s => s.step_id) := by
    intro id
    rw [hdperm.mem_iff, List.mem_dedup]
  refine ⟨?_, hnd, ?_, ?_, ?_, ?_⟩
  · intro id hid d hd
    have := layered_topo batches [] hlay (by simpa [hord] using hnd)
      id (by simpa [hord] using hid) d hd
    simpa [hord] using this
  · intro s hs
    exact List.count_eq_one_of_mem hnd
      ((hmem s.step_id).mpr (List.mem_map_of_mem _ hs))
  · intro id hid
    rcases List.mem_map.mp ((hmem id).mp hid) with ⟨s, hs, hsid⟩
    exact ⟨s, hs, hsid⟩
  · rw [hord, hgrps]
    exact flatten_filter_sublist _ batches
  · intro gp hgp
    rw [hgrps] at hgp
    have := List.of_mem_filter hgp
    simpa using this

/-- The protocol compiled from the two-independent-step script. -/
def c1proto : CompiledProtocol :=
  protoOf (compileProtocol twoIndepScript ["p_a", "p_b"] selId)

/-- Witness for C1: the invariants hold for a concretely compiled
protocol. -/
theorem compiled_protocol_plan_invariants_witness :
    c1proto.execution_order.Nodup ∧
    List.Sublist c1proto.parallel_groups.flatten c1proto.execution_order := by
  have h := compiled_protocol_plan_invariants twoIndepScript ["p_a", "p_b"]
    selId c1proto selId_valid rfl
  exact ⟨h.2.1, h.2.2.2.2.1⟩

/-- C4 (amended): compilation is deterministic given identical hash
iteration orders, and across different iteration orders the execution
orders of two successful compilations of the same script are permutations
of each other with pairwise-permuted parallel groups (same batch
partition up to order within a batch). -/
theorem compilation_deterministic_up_to_batches (script : TurbulanceScript)
    (ko₁ ko₂ : List String) (sel₁ sel₂ : List String → List String)
    (p₁ p₂ : CompiledProtocol)
    (hsel₁ : SelValid sel₁) (hsel₂ : SelValid sel₂)
    (h₁ : compileProtocol script ko₁ sel₁ = .ok p₁)
    (h₂ : compileProtocol script ko₂ sel₂ = .ok p₂) :
    p₁.execution_order.Perm p₂.execution_order ∧
    List.Forall₂ List.Perm p₁.parallel_groups p₂.parallel_groups ∧
    (ko₁ = ko₂ → sel₁ = sel₂ → p₁ = p₂) := by
  obtain ⟨steps₁, mode₁, ord₁, grps₁, hex₁, hm₁, hp₁, rfl⟩ :=
    compileProtocol_ok_inv h₁
  obtain ⟨steps₂, mode₂, ord₂, grps₂, hex₂, hm₂, hp₂, rfl⟩ :=
    compileProtocol_ok_inv h₂
  have hsteps : steps₁ = steps₂ := by
    have := hex₁.symm.trans hex₂
    exact Except.ok.inj this
  subst hsteps
  unfold calcExecutionPlan at hp₁ hp₂
  have hperm := planLoop_perm hsel₁ hsel₂ _
    ((hsel₁ _).trans ((hsel₂ _).symm))
    (List.Perm.refl []) hp₁ hp₂
  refine ⟨hperm.1, hperm.2, ?_⟩
  rintro rfl rfl
  exact Except.ok.inj (h₁.symm.trans h₂)

/-- Witness for the amended C4 at two concrete valid iteration orders. -/
theorem compilation_deterministic_up_to_batches_witness :
    c1proto.execution_order.Perm
      (protoOf (compileProtocol twoIndepScript ["p_a", "p_b"] selRev)).execution_order := by
  have h := compilation_deterministic_up_to_batches twoIndepScript
    ["p_a", "p_b"] ["p_a", "p_b"] selId selRev c1proto
    (protoOf (compileProtocol twoIndepScript ["p_a", "p_b"] selRev))
    selId_valid selRev_valid rfl rfl
  exact h.1

/-- Counterexample to C4 as stated: two valid hash iteration orders give
different `execution_order` lists for the same script. -/
theorem compilation_determinism_counterexample :
    (compileProtocol twoIndepScript ["p_a", "p_b"] selId).map
        (fun p => p.execution_order) = .ok ["p_a", "p_b"] ∧
    (compileProtocol twoIndepScript ["p_a", "p_b"] selRev).map
        (fun p => p.execution_order) = .ok ["p_b", "p_a"] ∧
    (compileProtocol twoIndepScript ["p_a", "p_b"] selId).map
        (fun p => p.execution_order) ≠
      (compileProtocol twoIndepScript ["p_a", "p_b"] selRev).map
        (fun p => p.execution_order) := by
  refine ⟨rfl, rfl, ?_⟩
  intro hc
  rw [show (compileProtocol twoIndepScript ["p_a", "p_b"] selId).map
      (fun p => p.execution_order) = .ok ["p_a", "p_b"] from rfl] at hc
  rw [show (compileProtocol twoIndepScript ["p_a", "p_b"] selRev).map
      (fun p => p.execution_order) = .ok ["p_b", "p_a"] from rfl] at hc
  simp at hc

/-- A successfully built step's id is the protocol name, an underscore,
and the variable name. -/
theorem buildStep_step_id {pname : String} {node : TurbulanceNode}
    {step : ExecutionStep} (h : buildStep pname node = .ok step) :
    step.step_id = pname ++ "_" ++ step.variable_name := by
  unfold buildStep at h
  cases hnm : node.name with
  | none => rw [hnm] at h; exact absurd h (by simp)
  | some vn =>
    rw [hnm] at h
    cases hst : lookupAL node.parameters "stage" with
    | none => rw [hst] at h; exact absurd h (by simp)
    | some v =>
      rw [hst] at h
      cases v with
      | str stage_name =>
        simp only [Except.ok.injEq] at h
        subst h
        rfl
      | num q => exact absurd h (by simp)
      | bool b => exact absurd h (by simp)
      | arr l => exact absurd h (by simp)
      | obj o => exact absurd h (by simp)
      | pipelineCall st cfg => exact absurd h (by simp)

/-- Every step extracted by the node loop has the derived id. -/
theorem extractStepsGo_step_id (pname : String) :
    ∀ (nodes : List TurbulanceNode) (steps : List ExecutionStep),
      extractStepsGo pname nodes = .ok steps →
      ∀ s ∈ steps, s.step_id = pname ++ "_" ++ s.variable_name := by
  intro nodes
  induction nodes with
  | nil =>
    intro steps h s hs
    simp only [extractStepsGo, Except.ok.injEq] at h
    subst h
    simp at hs
  | cons node rest ih =>
    intro steps h s hs
    simp only [extractStepsGo] at h
    by_cases hnt : node.node_type ≠ NodeType.PipelineStage
    · rw [if_pos hnt] at h
      exact ih steps h s hs
    · rw [if_neg hnt] at h
      cases hb : buildStep pname node with
      | error e => rw [hb] at h; exact absurd h (by simp [Bind.bind, Except.bind])
      | ok step =>
        rw [hb] at h
        cases hr : extractStepsGo pname rest with
        | error e =>
          rw [hr] at h
          exact absurd h (by simp [Bind.bind, Except.bind])
        | ok steps' =>
          rw [hr] at h
          simp only [Bind.bind, Except.bind, Except.ok.injEq] at h
          subst h
          rcases List.mem_cons.mp hs with rfl | hs'
          · exact buildStep_step_id hb
          · exact ih steps' hr s hs'

/-- C7 (amended): every extracted step's id is
`protocol_name ++ "_" ++ variable_name` and the execution order of a
compiled protocol lists each id once; but duplicate variable names are
not rejected: a script with two pipeline stages named `x` compiles
successfully, keeping both steps while the shared id appears once in the
order. -/
theorem step_ids_derived_and_duplicates_not_rejected :
    (∀ (script : TurbulanceScript) (steps : List ExecutionStep),
      extractExecutionSteps script = .ok steps →
      ∀ s ∈ steps, s.step_id = script.protocol_name ++ "_" ++ s.variable_name) ∧
    (∀ (script : TurbulanceScript) (ko : List String)
       (sel : List String → List String) (p : CompiledProtocol),
      SelValid sel → compileProtocol script ko sel = .ok p →
      p.execution_order.Nodup) ∧
    (compileProtocol dupScript ["p_x"] selId).map
      (fun p => (p.execution_order, p.execution_steps.length))
      = .ok (["p_x"], 2) := by
  refine ⟨?_, ?_, rfl⟩
  · intro script steps h s hs
    exact extractStepsGo_step_id script.protocol_name script.pipeline_calls
      steps h s hs
  · intro script ko sel p hsel h
    obtain ⟨steps, mode, ord, grps, hex, hm, hp, rfl⟩ := compileProtocol_ok_inv h
    unfold calcExecutionPlan at hp
    obtain ⟨batches, hord, hgrps, hperm, hlay⟩ := planLoop_ok hsel _ hp
    exact (hperm.trans (hsel _)).nodup_iff.mpr
      (steps.map (fun s => s.step_id)).nodup_dedup

/-- Witness for the amended C7 at the duplicate-name script. -/
theorem step_ids_derived_and_duplicates_not_rejected_witness :
    (protoOf (compileProtocol dupScript ["p_x"] selId)).execution_order.Nodup := by
  exact step_ids_derived_and_duplicates_not_rejected.2.1 dupScript ["p_x"] selId
    (protoOf (compileProtocol dupScript ["p_x"] selId)) selId_valid rfl

/-- Counterexample to C7 as stated: the duplicate-variable-name script
does not fail compilation; it produces a protocol. -/
theorem duplicate_variable_names_compile_counterexample :
    (compileProtocol dupScript ["p_x"] selId).toOption.isSome = true := rfl

/-! ## DFS cycle-detection soundness -/

/-- The edge relation of a dependency graph: `u` depends on `v`. -/
def EdgeG (g : List (String × List String)) (u v : String) : Prop :=
  v ∈ depsOf g u

/-- A dependency cycle: a nonempty dependency path from some node back to
itself. -/
def HasCycle (g : List (String × List String)) : Prop :=
  ∃ x, Relation.TransGen (EdgeG g) x x

/-- A finish-order certificate: a duplicate-free list in which every listed
node's dependencies are listed strictly earlier. -/
def FinCert (g : List (String × List String)) (fin : List String) : Prop :=
  fin.Nodup ∧
  ∀ u ∈ fin, ∀ v ∈ depsOf g u, v ∈ fin ∧ fin.indexOf v < fin.indexOf u

/-- The invariant threaded through the DFS: the visited set is the union
of the finished nodes and the current path, and the finished nodes form a
certificate disjoint from the path. -/
def DfsInv (g : List (String × List String))
    (visited path fin : List String) : Prop :=
  (∀ y, y ∈ visited ↔ (y ∈ fin ∨ y ∈ path)) ∧
  (∀ y ∈ fin, y ∉ path) ∧
  FinCert g fin

theorem indexOf_extend {fin fin' : List String} {a : String}
    (hpre : List.IsPrefix fin fin') (ha : a ∈ fin) :
    fin'.indexOf a = fin.indexOf a := by
  obtain ⟨t, rfl⟩ := hpre
  exact indexOf_append_left t ha

/-- Certificates extend under appending a node whose dependencies are
already finished. -/
theorem finCert_append {g : List (String × List String)} {fin : List String}
    {x : String} (hc : FinCert g fin) (hx : x ∉ fin)
    (hdeps : ∀ v ∈ depsOf g x, v ∈ fin) : FinCert g (fin ++ [x]) := by
  obtain ⟨hnd, hcert⟩ := hc
  constructor
  · simpa [List.nodup_append] using ⟨hnd, hx⟩
  · intro u hu v hv
    have hpre : List.IsPrefix fin (fin ++ [x]) := ⟨[x], rfl⟩
    rcases List.mem_append.mp hu with hu | hu
    · obtain ⟨hvf, hlt⟩ := hcert u hu v hv
      refine ⟨List.mem_append_left _ hvf, ?_⟩
      rw [indexOf_extend hpre hvf, indexOf_extend hpre hu]
      exact hlt
    · have hux : u = x := by simpa using hu
      subst hux
      have hvf := hdeps v hv
      refine ⟨List.mem_append_left _ hvf, ?_⟩
      rw [indexOf_extend hpre hvf, indexOf_append_right [u] hx]
      calc fin.indexOf v < fin.length := List.indexOf_lt_length.mpr hvf
        _ ≤ fin.length + [u].indexOf u := Nat.le_add_right _ _

/-- Inversion of a successful `Except` bind. -/
theorem bind_ok_inv {α β : Type} {e : Except String α}
    {f : α → Except String β} {b : β} (h : (e >>= f) = .ok b) :
    ∃ a, e = .ok a ∧ f a = .ok b := by
  cases e with
  | error err => exact absurd h (by simp [Bind.bind, Except.bind])
  | ok a =>
    refine ⟨a, rfl, ?_⟩
    simpa [Bind.bind, Except.bind] using h

/-- The main DFS invariant lemma: a successful run extends the finish
certificate by a prefix-preserving suffix that contains every processed
node. -/
theorem calcDepthGo_ok {g : List (String × List String)} :
    ∀ (fuel : Nat) (xs visited path : List String) (v : List String)
      (d : Nat) (fin : List String),
      DfsInv g visited path fin →
      calcDepthGo g fuel xs visited path = .ok (v, d) →
      ∃ fin', List.IsPrefix fin fin' ∧ DfsInv g v path fin' ∧
        ∀ x ∈ xs, x ∈ fin' := by
  intro fuel
  induction fuel with
  | zero =>
    intro xs visited path v d fin _ h
    exact absurd h (by simp [calcDepthGo])
  | succ fuel ih =>
    intro xs visited path v d fin hinv h
    match xs with
    | [] =>
      simp only [calcDepthGo, Except.ok.injEq] at h
      obtain ⟨rfl, -⟩ : visited = v ∧ (0 : Nat) = d :=
        ⟨congrArg Prod.fst h, congrArg Prod.snd h⟩
      exact ⟨fin, List.prefix_refl fin, hinv, by simp⟩
    | x :: rest =>
      simp only [calcDepthGo] at h
      by_cases hxp : x ∈ path
      · rw [if_pos hxp] at h
        exact absurd h (by simp [Bind.bind, Except.bind])
      · rw [if_neg hxp] at h
        by_cases hxv : x ∈ visited
        · rw [if_pos hxv] at h
          obtain ⟨p1, h1, h⟩ := bind_ok_inv h
          obtain ⟨p2, h2, h3⟩ := bind_ok_inv h
          obtain ⟨rfl, -⟩ : p2.1 = v ∧ max p1.2 p2.2 = d :=
            ⟨congrArg Prod.fst (Except.ok.inj h3),
             congrArg Prod.snd (Except.ok.inj h3)⟩
          have hp1 : visited = p1.1 :=
            congrArg Prod.fst (Except.ok.inj h1)
          rw [← hp1] at h2
          obtain ⟨fin', hpre, hinv', hcov⟩ :=
            ih rest visited path p2.1 p2.2 fin hinv h2
          have hxf : x ∈ fin := by
            rcases (hinv.1 x).mp hxv with hf | hp
            · exact hf
            · exact absurd hp hxp
          refine ⟨fin', hpre, hinv', ?_⟩
          intro y hy
          rcases List.mem_cons.mp hy with rfl | hy
          · exact hpre.subset hxf
          · exact hcov y hy
        · rw [if_neg hxv] at h
          obtain ⟨pI, hI, h⟩ := bind_ok_inv h
          obtain ⟨p1, hwrap, h⟩ := bind_ok_inv h
          obtain ⟨p2, h2, h3⟩ := bind_ok_inv h
          obtain ⟨rfl, -⟩ : p2.1 = v ∧ max p1.2 p2.2 = d :=
            ⟨congrArg Prod.fst (Except.ok.inj h3),
             congrArg Prod.snd (Except.ok.inj h3)⟩
          have hp1pre := congrArg Prod.fst (Except.ok.inj hwrap)
          have hp1 : pI.1 = p1.1 := hp1pre
          have hxnf : x ∉ fin := by
            intro hc
            exact hxv ((hinv.1 x).mpr (Or.inl hc))
          have hinvI : DfsInv g (x :: visited) (x :: path) fin := by
            refine ⟨?_, ?_, hinv.2.2⟩
            · intro y
              constructor
              · intro hy
                rcases List.mem_cons.mp hy with rfl | hy
                · exact Or.inr (List.mem_cons_self y path)
                · rcases (hinv.1 y).mp hy with hf | hp
                  · exact Or.inl hf
                  · exact Or.inr (List.mem_cons_of_mem x hp)
              · intro hy
                rcases hy with hf | hp
                · exact List.mem_cons_of_mem x ((hinv.1 y).mpr (Or.inl hf))
                · rcases List.mem_cons.mp hp with rfl | hp
                  · exact List.mem_cons_self y visited
                  · exact List.mem_cons_of_mem x ((hinv.1 y).mpr (Or.inr hp))
            · intro y hy hc
              rcases List.mem_cons.mp hc with rfl | hp
              · exact hxnf hy
              · exact hinv.2.1 y hy hp
          obtain ⟨finI, hpreI, hinvI', hcovI⟩ :=
            ih (depsOf g x) (x :: visited) (x :: path) pI.1 pI.2 fin hinvI hI
          have hxnfI : x ∉ finI := by
            intro hc
            exact hinvI'.2.1 x hc (List.mem_cons_self x path)
          have hcert : FinCert g (finI ++ [x]) :=
            finCert_append hinvI'.2.2 hxnfI hcovI
          have hinvX : DfsInv g pI.1 path (finI ++ [x]) := by
            refine ⟨?_, ?_, hcert⟩
            · intro y
              rw [hinvI'.1 y]
              constructor
              · rintro (hf | hp)
                · exact Or.inl (List.mem_append_left _ hf)
                · rcases List.mem_cons.mp hp with rfl | hp
                  · exact Or.inl (List.mem_append_right _ (by simp))
                  · exact Or.inr hp
              · rintro (hf | hp)
                · rcases List.mem_append.mp hf with hf | hf
                  · exact Or.inl hf
                  · have hyx : y = x := by simpa using hf
                    exact Or.inr (hyx ▸ List.mem_cons_self x path)
                · exact Or.inr (List.mem_cons_of_mem x hp)
            · intro y hy hc
              rcases List.mem_append.mp hy with hf | hf
              · exact hinvI'.2.1 y hf (List.mem_cons_of_mem x hc)
              · have hyx : y = x := by simpa using hf
                exact hxp (hyx ▸ hc)
          rw [← hp1] at h2
          obtain ⟨finR, hpreR, hinvR, hcovR⟩ :=
            ih rest pI.1 path p2.1 p2.2 (finI ++ [x]) hinvX h2
          refine ⟨finR, ?_, hinvR, ?_⟩
          · exact hpreI.trans ((List.prefix_append finI [x]).trans hpreR)
          · intro y hy
            rcases List.mem_cons.mp hy with rfl | hy
            · exact hpreR.subset (List.mem_append_right _ (by simp))
            · exact hcovR y hy

/-- A successful run of the key loop yields a certificate covering every
key it processed. -/
theorem calcMaxDepthGo_ok {g : List (String × List String)} :
    ∀ (ks visited : List String) (maxd : Nat) (n : Nat) (fin : List String),
      DfsInv g visited [] fin →
      calcMaxDepthGo g ks visited maxd = .ok n →
      ∃ fin', List.IsPrefix fin fin' ∧ FinCert g fin' ∧ ∀ k ∈ ks, k ∈ fin' := by
  intro ks
  induction ks with
  | nil =>
    intro visited maxd n fin hinv _
    exact ⟨fin, List.prefix_refl fin, hinv.2.2, by simp⟩
  | cons k rest ih =>
    intro visited maxd n fin hinv h
    simp only [calcMaxDepthGo] at h
    by_cases hkv : k ∈ visited
    · rw [if_pos hkv] at h
      obtain ⟨fin', hpre, hcert, hcov⟩ := ih visited maxd n fin hinv h
      have hkf : k ∈ fin := by
        rcases (hinv.1 k).mp hkv with hf | hp
        · exact hf
        · simp at hp
      refine ⟨fin', hpre, hcert, ?_⟩
      intro y hy
      rcases List.mem_cons.mp hy with rfl | hy
      · exact hpre.subset hkf
      · exact hcov y hy
    · rw [if_neg hkv] at h
      obtain ⟨p, hp, h⟩ := bind_ok_inv h
      obtain ⟨finI, hpreI, hinvI, hcovI⟩ :=
        calcDepthGo_ok (nodeBound g) [k] visited [] p.1 p.2 fin hinv hp
      obtain ⟨fin', hpre', hcert', hcov'⟩ := ih p.1 (max maxd p.2) n finI hinvI h
      refine ⟨fin', hpreI.trans hpre', hcert', ?_⟩
      intro y hy
      rcases List.mem_cons.mp hy with rfl | hy
      · exact hpre'.subset (hcovI y (by simp))
      · exact hcov' y hy

/-- A successful `calculate_max_dependency_depth` yields a finish
certificate covering every key of the iteration order. -/
theorem calcMaxDepth_ok_cert {g : List (String × List String)}
    {ko : List String} {n : Nat} (h : calcMaxDepth g ko = .ok n) :
    ∃ fin, FinCert g fin ∧ ∀ k ∈ ko, k ∈ fin := by
  have hinv : DfsInv g [] [] [] := by
    refine ⟨by simp, by simp, by simp [FinCert], by simp⟩
  obtain ⟨fin, _, hcert, hcov⟩ := calcMaxDepthGo_ok ko [] 0 n [] hinv h
  exact ⟨fin, hcert, hcov⟩

/-- A node with an outgoing edge is a key of the graph. -/
theorem mem_keys_of_edge {g : List (String × List String)} {u v : String}
    (h : EdgeG g u v) : u ∈ alKeys g := by
  unfold EdgeG depsOf at h
  cases hl : lookupAL g u with
  | none => rw [hl] at h; simp at h
  | some deps => exact lookupAL_some_mem_keys hl

/-- Along a dependency path the certificate index strictly decreases. -/
theorem transGen_index_lt {g : List (String × List String)}
    {fin : List String} (hcert : FinCert g fin) :
    ∀ {a b : String}, Relation.TransGen (EdgeG g) a b → a ∈ fin →
      b ∈ fin ∧ fin.indexOf b < fin.indexOf a := by
  intro a b h
  induction h with
  | single hab =>
    intro ha
    exact hcert.2 a ha _ hab
  | tail hac hcb ih =>
    intro ha
    rename_i c _
    obtain ⟨hc, hlt⟩ := ih ha
    obtain ⟨hb, hlt2⟩ := hcert.2 c hc _ hcb
    exact ⟨hb, hlt2.trans hlt⟩

/-- The source of a dependency path is a key of the graph. -/
theorem transGen_src_mem {g : List (String × List String)} {a b : String}
    (h : Relation.TransGen (EdgeG g) a b) : a ∈ alKeys g := by
  induction h with
  | single hab => exact mem_keys_of_edge hab
  | tail _ _ ih => exact ih

/-- If the depth computation succeeds over an order covering the keys, the
graph is acyclic. -/
theorem acyclic_of_calcMaxDepth_ok {g : List (String × List String)}
    {ko : List String} {n : Nat} (h : calcMaxDepth g ko = .ok n)
    (hko : ∀ k ∈ alKeys g, k ∈ ko) : ¬ HasCycle g := by
  rintro ⟨x, hx⟩
  obtain ⟨fin, hcert, hcov⟩ := calcMaxDepth_ok_cert h
  have hxk : x ∈ alKeys g := transGen_src_mem hx
  have hxf : x ∈ fin := hcov x (hko x hxk)
  obtain ⟨-, hlt⟩ := transGen_index_lt hcert hx hxf
  exact lt_irrefl _ hlt

/-- Every error of the DFS is the cycle message. -/
theorem calcDepthGo_error {g : List (String × List String)} :
    ∀ (fuel : Nat) (xs visited path : List String) (e : String),
      calcDepthGo g fuel xs visited path = .error e → e = cycleMsg := by
  intro fuel
  induction fuel with
  | zero =>
    intro xs visited path e h
    simp only [calcDepthGo, Except.error.injEq] at h
    exact h.symm
  | succ fuel ih =>
    intro xs visited path e h
    match xs with
    | [] => simp [calcDepthGo] at h
    | x :: rest =>
      simp only [calcDepthGo] at h
      by_cases hxp : x ∈ path
      · rw [if_pos hxp] at h
        have : (Except.error cycleMsg : Except String (List String × Nat)) >>=
            (fun y => calcDepthGo g fuel rest y.1 path >>=
              fun r => Except.ok (r.1, max y.2 r.2)) = Except.error e := h
        simp only [Bind.bind, Except.bind, Except.error.injEq] at this
        exact this.symm
      · rw [if_neg hxp] at h
        by_cases hxv : x ∈ visited
        · rw [if_pos hxv] at h
          have h2 : calcDepthGo g fuel rest visited path >>=
              (fun r => Except.ok (r.1, max 0 r.2)) = Except.error e := by
            simpa [Bind.bind, Except.bind] using h
          cases hr : calcDepthGo g fuel rest visited path with
          | error e2 =>
            rw [hr] at h2
            simp only [Bind.bind, Except.bind, Except.error.injEq] at h2
            exact h2 ▸ ih rest visited path e2 hr
          | ok r =>
            rw [hr] at h2
            simp [Bind.bind, Except.bind] at h2
        · rw [if_neg hxv] at h
          cases hI : calcDepthGo g fuel (depsOf g x) (x :: visited) (x :: path) with
          | error e2 =>
            rw [hI] at h
            simp only [Bind.bind, Except.bind, Except.error.injEq] at h
            exact h ▸ ih _ _ _ e2 hI
          | ok pI =>
            rw [hI] at h
            simp only [Bind.bind, Except.bind] at h
            cases hr : calcDepthGo g fuel rest pI.1 path with
            | error e2 =>
              rw [hr] at h
              simp only [Except.error.injEq] at h
              exact h ▸ ih rest pI.1 path e2 hr
            | ok r =>
              rw [hr] at h
              simp at h

/-- Every error of the key loop is the cycle message. -/
theorem calcMaxDepthGo_error {g : List (String × List String)} :
    ∀ (ks visited : List String) (maxd : Nat) (e : String),
      calcMaxDepthGo g ks visited maxd = .error e → e = cycleMsg := by
  intro ks
  induction ks with
  | nil => intro visited maxd e h; simp [calcMaxDepthGo] at h
  | cons k rest ih =>
    intro visited maxd e h
    simp only [calcMaxDepthGo] at h
    by_cases hkv : k ∈ visited
    · rw [if_pos hkv] at h
      exact ih visited maxd e h
    · rw [if_neg hkv] at h
      cases hp : calcDepthGo g (nodeBound g) [k] visited [] with
      | error e2 =>
        rw [hp] at h
        simp only [Bind.bind, Except.bind, Except.error.injEq] at h
        exact h ▸ calcDepthGo_error (nodeBound g) [k] visited [] e2 hp
      | ok p =>
        rw [hp] at h
        have h2 : calcMaxDepthGo g rest p.1 (max maxd p.2) = .error e := by
          simpa [Bind.bind, Except.bind] using h
        exact ih p.1 (max maxd p.2) e h2

/-- A depth-computation error aborts `determine_execution_mode` with the
same error. -/
theorem determineExecutionMode_error {steps : List ExecutionStep}
    {g : List (String × List String)} {ko : List String} {e : String}
    (h : calcMaxDepth g ko = .error e) :
    determineExecutionMode steps g ko = .error e := by
  unfold determineExecutionMode
  rw [h]
  rfl

/-- Total projection of an extraction result. -/
def stepsOf (e : Except String (List ExecutionStep)) : List ExecutionStep :=
  match e with
  | .ok s => s
  | .error _ => []

/-- C2: for every script whose resolved dependency graph contains a
cycle, `compile_protocol` returns the circular-dependency validation
error instead of a `CompiledProtocol`, for any `HashMap` key-iteration
order that covers the graph's keys and any `HashSet` order. -/
theorem cyclic_dependency_fails_compilation (script : TurbulanceScript)
    (ko : List String) (sel : List String → List String)
    (steps : List ExecutionStep)
    (hex : extractExecutionSteps script = .ok steps)
    (hko : ∀ k ∈ alKeys (buildDependencyGraph steps), k ∈ ko)
    (hcyc : HasCycle (buildDependencyGraph steps)) :
    compileProtocol script ko sel = .error cycleMsg := by
  obtain ⟨e, hc⟩ :
      ∃ e, calcMaxDepth (buildDependencyGraph steps) ko = .error e := by
    cases hc : calcMaxDepth (buildDependencyGraph steps) ko with
    | ok n => exact absurd hcyc (acyclic_of_calcMaxDepth_ok hc hko)
    | error e => exact ⟨e, rfl⟩
  have he : e = cycleMsg := calcMaxDepthGo_error ko [] 0 e hc
  subst he
  rw [compileProtocol_eq, hex]
  simp only [Except.bind]
  rw [determineExecutionMode_error hc]

/-- C2 witness: the two-step mutual-dependency script satisfies the
hypotheses concretely and fails with the cycle error. -/
theorem cyclic_dependency_fails_compilation_witness :
    (extractExecutionSteps cycScript
      = .ok (stepsOf (extractExecutionSteps cycScript))) ∧
    (∀ k ∈ alKeys (buildDependencyGraph
        (stepsOf (extractExecutionSteps cycScript))), k ∈ cycKo) ∧
    HasCycle (buildDependencyGraph
      (stepsOf (extractExecutionSteps cycScript))) ∧
    compileProtocol cycScript cycKo selId = .error cycleMsg := by
  have e1 : EdgeG (buildDependencyGraph
      (stepsOf (extractExecutionSteps cycScript))) "p_a" "p_b" := by
    unfold EdgeG
    decide
  have e2 : EdgeG (buildDependencyGraph
      (stepsOf (extractExecutionSteps cycScript))) "p_b" "p_a" := by
    unfold EdgeG
    decide
  have hcyc : HasCycle (buildDependencyGraph
      (stepsOf (extractExecutionSteps cycScript))) :=
    ⟨"p_a", Relation.TransGen.head e1 (Relation.TransGen.single e2)⟩
  exact ⟨rfl, by decide, hcyc,
    cyclic_dependency_fails_compilation cycScript cycKo selId
      (stepsOf (extractExecutionSteps cycScript)) rfl (by decide) hcyc⟩

/-! ## Execution-mode selection (C5) -/

/-- `determine_execution_mode` successfully inverted: the mode follows the
implemented decision table, evaluated in order. -/
theorem determineExecutionMode_table {steps : List ExecutionStep}
    {g : List (String × List String)} {ko : List String}
    {m : ExecutionMode} {d : Nat}
    (hd : calcMaxDepth g ko = .ok d)
    (hm : determineExecutionMode steps g ko = .ok m) :
    ((steps.filter (isIndependent g)).length = steps.length → m = .Parallel) ∧
    ((steps.filter (isIndependent g)).length ≠ steps.length →
      ((steps.filter (isIndependent g)).length = 0 → m = .Sequential) ∧
      ((steps.filter (isIndependent g)).length ≠ 0 →
        ((d ≤ 3 ∧ ((g.map (fun p => p.2.length)).sum : ℚ) / (steps.length : ℚ) < 2
            → m = .Adaptive) ∧
         (¬(d ≤ 3 ∧ ((g.map (fun p => p.2.length)).sum : ℚ) / (steps.length : ℚ) < 2)
            → m = .Optimized)))) := by
  unfold determineExecutionMode at hm
  rw [hd] at hm
  simp only [Bind.bind, Except.bind] at hm
  by_cases h1 : (steps.filter (isIndependent g)).length = steps.length
  · rw [if_pos h1] at hm
    refine ⟨fun _ => ?_, fun hne => absurd h1 hne⟩
    injection hm with hmm
    exact hmm.symm
  · rw [if_neg h1] at hm
    refine ⟨fun h => absurd h h1, fun _ => ⟨?_, ?_⟩⟩
    · intro h2
      rw [if_pos h2] at hm
      injection hm with hmm
      exact hmm.symm
    · intro h2
      rw [if_neg h2] at hm
      refine ⟨?_, ?_⟩
      · intro h3
        rw [if_pos h3] at hm
        injection hm with hmm
        exact hmm.symm
      · intro h3
        rw [if_neg h3] at hm
        injection hm with hmm
        exact hmm.symm

/-- A successful mode determination presupposes a successful depth
computation. -/
theorem determineExecutionMode_ok_depth {steps : List ExecutionStep}
    {g : List (String × List String)} {ko : List String} {m : ExecutionMode}
    (hm : determineExecutionMode steps g ko = .ok m) :
    ∃ d, calcMaxDepth g ko = .ok d := by
  cases hc : calcMaxDepth g ko with
  | ok d => exact ⟨d, rfl⟩
  | error e =>
    rw [determineExecutionMode_error hc] at hm
    exact Except.noConfusion hm

/-- `is_independent` in terms of the graph lookup. -/
theorem isIndependent_eq (g : List (String × List String))
    (s : ExecutionStep) :
    isIndependent g s = (depsOf g s.step_id).isEmpty := by
  unfold isIndependent depsOf
  cases lookupAL g s.step_id <;> rfl

/-- A successful execution plan for a nonempty step list exhibits an
independent step: the first ready set consists of steps whose resolved
dependency lists are empty. -/
theorem plan_ok_exists_independent {steps : List ExecutionStep}
    {g : List (String × List String)} {sel : List String → List String}
    {ord : List String} {grps : List (List String)}
    (hsel : SelValid sel) (hne : steps ≠ [])
    (hp : calcExecutionPlan steps g sel = .ok (ord, grps)) :
    ∃ s ∈ steps, isIndependent g s = true := by
  have hp' : planLoop g sel
      ((steps.map (fun s => s.step_id)).dedup.length + 1)
      (sel ((steps.map (fun s => s.step_id)).dedup)) [] = .ok (ord, grps) := hp
  have hidsne : (steps.map (fun s => s.step_id)).dedup ≠ [] := by
    intro h0
    exact hne (List.map_eq_nil_iff.mp ((List.dedup_eq_nil _).mp h0))
  have hlen : (sel ((steps.map (fun s => s.step_id)).dedup)).length
      = ((steps.map (fun s => s.step_id)).dedup).length :=
    (hsel _).length_eq
  have hselne : sel ((steps.map (fun s => s.step_id)).dedup) ≠ [] := by
    intro h0
    rw [h0] at hlen
    exact hidsne (List.length_eq_zero.mp hlen.symm)
  have hne1 : ¬((sel ((steps.map (fun s => s.step_id)).dedup)).isEmpty = true) := by
    intro h0
    exact hselne (List.isEmpty_iff.mp h0)
  simp only [planLoop] at hp'
  rw [if_neg hne1] at hp'
  by_cases hready : ((sel ((steps.map (fun s => s.step_id)).dedup)).filter
      (isReady g [])).isEmpty = true
  · rw [if_pos hready] at hp'
    exact Except.noConfusion hp'
  · have hfilne : (sel ((steps.map (fun s => s.step_id)).dedup)).filter
        (isReady g []) ≠ [] := by
      intro h0
      exact hready (by rw [h0]; rfl)
    obtain ⟨id, hid⟩ := List.exists_mem_of_ne_nil _ hfilne
    have hid2 := List.mem_filter.mp hid
    have hidin : id ∈ (steps.map (fun s => s.step_id)).dedup :=
      (hsel _).mem_iff.mp hid2.1
    have hidmap : id ∈ steps.map (fun s => s.step_id) := List.mem_dedup.mp hidin
    obtain ⟨s, hs, hsid⟩ := List.mem_map.mp hidmap
    have hsid' : s.step_id = id := hsid
    have hdeps : depsOf g id = [] := by
      have hr := hid2.2
      unfold isReady at hr
      rw [List.all_eq_true] at hr
      cases hdd : depsOf g id with
      | nil => rfl
      | cons a l =>
        have ha := hr a (by rw [hdd]; exact List.mem_cons_self a l)
        simp at ha
    refine ⟨s, hs, ?_⟩
    rw [isIndependent_eq, hsid', hdeps]
    rfl

/-- No successfully compiled nonempty protocol is Sequential: the first
ready batch of the plan is an independent step, so the `independent == 0`
branch of the decision table is unreachable when compilation succeeds. -/
theorem compiled_nonempty_not_sequential {script : TurbulanceScript}
    {ko : List String} {sel : List String → List String}
    {steps : List ExecutionStep} {p : CompiledProtocol}
    (hsel : SelValid sel)
    (hex : extractExecutionSteps script = .ok steps)
    (hne : steps ≠ [])
    (h : compileProtocol script ko sel = .ok p) :
    p.execution_mode ≠ .Sequential := by
  obtain ⟨steps', mode, ord, grps, hex', hm, hp, rfl⟩ := compileProtocol_ok_inv h
  have hss : steps = steps' := by
    rw [hex] at hex'
    injection hex'
  subst hss
  obtain ⟨d, hd⟩ := determineExecutionMode_ok_depth hm
  have htab := determineExecutionMode_table hd hm
  show mode ≠ .Sequential
  intro hseq
  by_cases h1 : (steps.filter (isIndependent (buildDependencyGraph steps))).length
      = steps.length
  · rw [htab.1 h1] at hseq
    exact ExecutionMode.noConfusion hseq
  · by_cases h2 : (steps.filter (isIndependent (buildDependencyGraph steps))).length
        = 0
    · obtain ⟨s, hs, hind⟩ := plan_ok_exists_independent hsel hne hp
      have hmem : s ∈ steps.filter (isIndependent (buildDependencyGraph steps)) :=
        List.mem_filter.mpr ⟨hs, hind⟩
      rw [List.length_eq_zero] at h2
      rw [h2] at hmem
      exact absurd hmem (List.not_mem_nil s)
    · rcases Classical.em (d ≤ 3 ∧
          ((((buildDependencyGraph steps).map (fun p => p.2.length)).sum : ℚ)
            / (steps.length : ℚ) < 2)) with h3 | h3
      · rw [((htab.2 h1).2 h2).1 h3] at hseq
        exact ExecutionMode.noConfusion hseq
      · rw [((htab.2 h1).2 h2).2 h3] at hseq
        exact ExecutionMode.noConfusion hseq

/-- The chain script's extracted steps. -/
def chainSteps3 : List ExecutionStep := stepsOf (extractExecutionSteps chainScript)

/-- The chain script's dependency graph. -/
def chainGraph3 : List (String × List String) := buildDependencyGraph chainSteps3

/-- The three-step linear chain lands in the Adaptive branch: one step is
independent (so neither Parallel nor Sequential), the depth is within 3
and the average fan-in is 2/3. -/
theorem chain_mode :
    determineExecutionMode chainSteps3 chainGraph3 chainKo = .ok .Adaptive := by
  unfold determineExecutionMode
  rw [show calcMaxDepth chainGraph3 chainKo = .ok 1 from rfl]
  simp only [Bind.bind, Except.bind]
  split
  next h1 => exact absurd h1 (by decide)
  next h1 =>
    split
    next h2 => exact absurd h2 (by decide)
    next h2 =>
      split
      next h3 => rfl
      next h3 =>
        have havg : (((chainGraph3.map (fun p => p.2.length)).sum : ℚ)
            / (chainSteps3.length : ℚ)) < 2 := by
          rw [show chainGraph3.map (fun p => ((p.2.length : ℚ)))
                = [((0 : Nat) : ℚ), ((1 : Nat) : ℚ), ((1 : Nat) : ℚ)] from rfl,
              show chainSteps3.length = 3 from rfl]
          norm_num [List.sum_cons, List.sum_nil]
        exact (h3 ⟨by decide, havg⟩).elim

/-- The full compilation of the chain script selects Adaptive mode. -/
theorem chain_mode_adaptive :
    (protoOf (compileProtocol chainScript chainKo selId)).execution_mode
      = .Adaptive := by
  have h := compileProtocol_ok_of
    (show extractExecutionSteps chainScript = .ok chainSteps3 from rfl)
    chain_mode
    (show calcExecutionPlan chainSteps3 (buildDependencyGraph chainSteps3) selId
      = .ok (["p_x", "p_y", "p_z"], []) from rfl)
  rw [h]
  rfl

/-- C5 (corrected): execution-mode selection follows the implemented
decision table evaluated in order (all steps independent → Parallel; no
step independent → Sequential; else depth ≤ 3 and average fan-in < 2 →
Adaptive; else Optimized), and three mutually independent stages do
compile to Parallel; but the spec's second example is wrong: every
successfully compiled nonempty protocol has an independent step, so the
Sequential branch is unreachable on success, and the strictly linear
three-stage chain compiles to Adaptive, not Sequential. -/
theorem execution_mode_selection :
    (∀ (steps : List ExecutionStep) (g : List (String × List String))
        (ko : List String) (m : ExecutionMode) (d : Nat),
      calcMaxDepth g ko = .ok d →
      determineExecutionMode steps g ko = .ok m →
      (((steps.filter (isIndependent g)).length = steps.length → m = .Parallel) ∧
       ((steps.filter (isIndependent g)).length ≠ steps.length →
        ((steps.filter (isIndependent g)).length = 0 → m = .Sequential) ∧
        ((steps.filter (isIndependent g)).length ≠ 0 →
          ((d ≤ 3 ∧ ((g.map (fun p => p.2.length)).sum : ℚ) / (steps.length : ℚ) < 2
              → m = .Adaptive) ∧
           (¬(d ≤ 3 ∧ ((g.map (fun p => p.2.length)).sum : ℚ)
                / (steps.length : ℚ) < 2)
              → m = .Optimized)))))) ∧
    (∀ (script : TurbulanceScript) (ko : List String)
        (sel : List String → List String) (steps : List ExecutionStep)
        (p : CompiledProtocol),
      SelValid sel →
      extractExecutionSteps script = .ok steps →
      steps ≠ [] →
      compileProtocol script ko sel = .ok p →
      p.execution_mode ≠ .Sequential) ∧
    (protoOf (compileProtocol indep3Script indep3Ko selId)).execution_mode
      = .Parallel ∧
    (protoOf (compileProtocol chainScript chainKo selId)).execution_mode
      = .Adaptive :=
  ⟨fun _ _ _ _ _ hd hm => determineExecutionMode_table hd hm,
   fun _ _ _ _ _ hsel hex hne h =>
     compiled_nonempty_not_sequential hsel hex hne h,
   rfl,
   chain_mode_adaptive⟩

/-- C5 witness: the two-step independent script instantiates the
no-Sequential conjunct concretely. -/
theorem execution_mode_selection_witness :
    SelValid selId ∧
    extractExecutionSteps twoIndepScript
      = .ok (stepsOf (extractExecutionSteps twoIndepScript)) ∧
    stepsOf (extractExecutionSteps twoIndepScript) ≠ [] ∧
    compileProtocol twoIndepScript ["p_a", "p_b"] selId
      = .ok (protoOf (compileProtocol twoIndepScript ["p_a", "p_b"] selId)) ∧
    (protoOf (compileProtocol twoIndepScript
        ["p_a", "p_b"] selId)).execution_mode ≠ .Sequential :=
  ⟨selId_valid, rfl,
   fun h0 => absurd (congrArg List.length h0) (by decide), rfl,
   execution_mode_selection.2.1 twoIndepScript ["p_a", "p_b"] selId
     (stepsOf (extractExecutionSteps twoIndepScript))
     (protoOf (compileProtocol twoIndepScript ["p_a", "p_b"] selId))
     selId_valid rfl
     (fun h0 => absurd (congrArg List.length h0) (by decide)) rfl⟩

/-- Counterexample to C5 as stated: the strictly linear chain of three
dependent stages does not compile to Sequential; it compiles to
Adaptive. -/
theorem chain_not_sequential_counterexample :
    (protoOf (compileProtocol chainScript chainKo selId)).execution_mode
      = .Adaptive ∧
    (protoOf (compileProtocol chainScript chainKo selId)).execution_mode
      ≠ .Sequential := by
  refine ⟨chain_mode_adaptive, ?_⟩
  rw [chain_mode_adaptive]
  intro h0
  exact ExecutionMode.noConfusion h0

/-! ## Sequential failure handling (C3) -/

/-- A successful `execute_step` always reports `Completed` with no error
message: the `Failed` constructor site claimed by the spec does not exist
in the function. -/
theorem executeStep_ok_completed {env : StageEnv} {step : ExecutionStep}
    {r : StepResult} (h : executeStep env step = .ok r) :
    r.status = ExecutionStatus.Completed ∧ r.error_message = none := by
  unfold executeStep at h
  obtain ⟨out, ho, h⟩ := bind_ok_inv h
  simp only [Except.ok.injEq] at h
  subst h
  exact ⟨rfl, rfl⟩

/-- Every result accumulated by the sequential loop comes from a
successful `execute_step`, hence is `Completed`; the stop-on-`Failed`
branch is unreachable. -/
theorem execSeqGo_all_completed (env : StageEnv) (steps : List ExecutionStep) :
    ∀ (order : List String) (usage : ResourceUsage) (acc : List StepResult)
      (out : ResourceUsage × List StepResult),
      (∀ r ∈ acc, r.status = ExecutionStatus.Completed ∧ r.error_message = none) →
      execSeqGo env steps order usage acc = .ok out →
      ∀ r ∈ out.2, r.status = ExecutionStatus.Completed ∧
        r.error_message = none := by
  intro order
  induction order with
  | nil =>
    intro usage acc out hacc h
    simp only [execSeqGo, Except.ok.injEq] at h
    subst h
    exact hacc
  | cons id rest ih =>
    intro usage acc out hacc h
    simp only [execSeqGo] at h
    cases hf : steps.find? (fun s => s.step_id = id) with
    | none =>
      rw [hf] at h
      exact absurd h (by simp)
    | some step =>
      rw [hf] at h
      obtain ⟨r, hr, h⟩ := bind_ok_inv h
      have hc := executeStep_ok_completed hr
      rw [if_neg (by rw [hc.1]; exact fun hx => ExecutionStatus.noConfusion hx)] at h
      refine ih _ _ out ?_ h
      intro r2 hr2
      rcases List.mem_append.mp hr2 with h2 | h2
      · exact hacc r2 h2
      · have : r2 = r := by simpa using h2
        subst this
        exact hc

/-- A pipeline step fixture for execution, with a given stage name. -/
def mkExecStep (id stage : String) : ExecutionStep :=
  { step_id := id, stage_name := stage, variable_name := id, parameters := [],
    dependencies := [], resource_requirements := ⟨1, 1, 0, 1, 10, 1⟩,
    line_number := 1, priority := 1, timeout_seconds := 30 }

/-- A three-step Sequential protocol whose second step names a stage the
executor does not recognise. -/
def seqFailProto : CompiledProtocol :=
  { protocol_name := "p",
    execution_steps :=
      [mkExecStep "s1" "stage0_query_processor",
       mkExecStep "s2" "nonexistent_stage",
       mkExecStep "s3" "stage4_solution"],
    execution_mode := .Sequential,
    total_resource_requirements := defaultRequirements,
    dependency_graph := [("s1", []), ("s2", ["s1"]), ("s3", ["s2"])],
    execution_order := ["s1", "s2", "s3"],
    parallel_groups := [] }

/-- A one-step Sequential protocol that succeeds. -/
def seqOkProto : CompiledProtocol :=
  { protocol_name := "p",
    execution_steps := [mkExecStep "s1" "stage0_query_processor"],
    execution_mode := .Sequential,
    total_resource_requirements := defaultRequirements,
    dependency_graph := [("s1", [])],
    execution_order := ["s1"],
    parallel_groups := [] }

/-- A deterministic environment built around the source's own
`execute_stage` dispatch. -/
def simpleEnv : StageEnv :=
  { execStage := defaultExecStage,
    elapsed := fun _ => 1,
    quality := fun _ _ => zeroQuality,
    totalElapsed := 1,
    strategy := fun _ _ => "parallel" }

/-- Total projection of an execution result. -/
def execResOf (e : Except String ExecutionResult) : ExecutionResult :=
  match e with
  | .ok r => r
  | .error _ => initResult ""

/-- C3 (code bug): `execute_step` applies `?` to the stage-executor call,
so an executor error becomes an `Err` of the whole run; no `Failed`
`StepResult` with the error message attached is ever constructed (every
successful step result is `Completed` with no error message, and a
successful sequential run returns `Completed` results only), and on the
spec's three-step example the execution aborts with the raw executor
error instead of returning statistics with one completed and one failed
step. -/
theorem sequential_failure_aborts_run :
    (∀ (env : StageEnv) (step : ExecutionStep) (r : StepResult),
      executeStep env step = .ok r →
      r.status = ExecutionStatus.Completed ∧ r.error_message = none) ∧
    (∀ (env : StageEnv) (protocol : CompiledProtocol) (res : ExecutionResult),
      executeSequential env protocol = .ok res →
      ∀ r ∈ res.step_results, r.status = ExecutionStatus.Completed ∧
        r.error_message = none) ∧
    executeProtocol simpleEnv seqFailProto
      = .error "Unknown stage: nonexistent_stage" := by
  refine ⟨fun env step r h => executeStep_ok_completed h, ?_, rfl⟩
  intro env protocol res h
  unfold executeSequential at h
  obtain ⟨p, hp, h⟩ := bind_ok_inv h
  simp only [Except.ok.injEq] at h
  subst h
  intro r hr
  exact execSeqGo_all_completed env protocol.execution_steps
    protocol.execution_order zeroUsage [] p (by simp) hp r hr

/-- C3 witness: a concrete successful sequential run, with only
`Completed` results. -/
theorem sequential_failure_aborts_run_witness :
    executeSequential simpleEnv seqOkProto
      = .ok (execResOf (executeSequential simpleEnv seqOkProto)) ∧
    ∀ r ∈ (execResOf (executeSequential simpleEnv seqOkProto)).step_results,
      r.status = ExecutionStatus.Completed ∧ r.error_message = none :=
  ⟨rfl, sequential_failure_aborts_run.2.1 simpleEnv seqOkProto
    (execResOf (executeSequential simpleEnv seqOkProto)) rfl⟩

/-! ## Parallel execution covers exactly the grouped steps (C10) -/

/-- A successful `execute_step` reports the executed step's id. -/
theorem executeStep_ok_id {env : StageEnv} {step : ExecutionStep}
    {r : StepResult} (h : executeStep env step = .ok r) :
    r.step_id = step.step_id := by
  unfold executeStep at h
  obtain ⟨out, ho, h⟩ := bind_ok_inv h
  simp only [Except.ok.injEq] at h
  subst h
  rfl

/-- Resolving a group preserves the listed ids in order. -/
theorem resolveGroup_ids {steps : List ExecutionStep} :
    ∀ {group : List String} {gsteps : List ExecutionStep},
      resolveGroup steps group = .ok gsteps →
      gsteps.map (fun s => s.step_id) = group := by
  intro group
  induction group with
  | nil =>
    intro gsteps h
    simp only [resolveGroup, Except.ok.injEq] at h
    subst h
    rfl
  | cons id rest ih =>
    intro gsteps h
    simp only [resolveGroup] at h
    cases hf : steps.find? (fun s => s.step_id = id) with
    | none =>
      rw [hf] at h
      exact absurd h (by simp)
    | some step =>
      rw [hf] at h
      obtain ⟨others, ho, h⟩ := bind_ok_inv h
      simp only [Except.ok.injEq] at h
      subst h
      have hid := List.find?_some hf
      simp at hid
      simp only [List.map_cons, ih ho, hid]

/-- Running a group produces one result per step, ids in order. -/
theorem runGroup_ids {env : StageEnv} :
    ∀ {gsteps : List ExecutionStep} {rs : List StepResult},
      runGroup env gsteps = .ok rs →
      rs.map (fun r => r.step_id) = gsteps.map (fun s => s.step_id) := by
  intro gsteps
  induction gsteps with
  | nil =>
    intro rs h
    simp only [runGroup, Except.ok.injEq] at h
    subst h
    rfl
  | cons step rest ih =>
    intro rs h
    simp only [runGroup] at h
    obtain ⟨r, hr, h⟩ := bind_ok_inv h
    obtain ⟨others, ho, h⟩ := bind_ok_inv h
    simp only [Except.ok.injEq] at h
    subst h
    simp only [List.map_cons, ih ho, executeStep_ok_id hr]

/-- The group loop produces results exactly for the flattened groups. -/
theorem execParGo_ids (env : StageEnv) (steps : List ExecutionStep) :
    ∀ (groups : List (List String)) (usage : ResourceUsage)
      (acc : List StepResult) (out : ResourceUsage × List StepResult),
      execParGo env steps groups usage acc = .ok out →
      out.2.map (fun r => r.step_id)
        = acc.map (fun r => r.step_id) ++ groups.flatten := by
  intro groups
  induction groups with
  | nil =>
    intro usage acc out h
    simp only [execParGo, Except.ok.injEq] at h
    subst h
    simp
  | cons group rest ih =>
    intro usage acc out h
    simp only [execParGo] at h
    obtain ⟨gsteps, hg, h⟩ := bind_ok_inv h
    obtain ⟨rs, hrs, h⟩ := bind_ok_inv h
    have h' : execParGo env steps rest
        (rs.foldl (fun u r => addUsage u r.resource_usage) usage)
        (acc ++ rs) = .ok out := h
    have hout := ih _ _ out h'
    rw [hout, List.map_append, runGroup_ids hrs, resolveGroup_ids hg]
    simp [List.append_assoc]

/-- The chain script's full compilation, spelled out. -/
theorem chain_compile_ok :
    compileProtocol chainScript chainKo selId
      = .ok { protocol_name := chainScript.protocol_name,
              execution_steps := chainSteps3,
              execution_mode := .Adaptive,
              total_resource_requirements :=
                calcTotalResources chainSteps3 .Adaptive,
              dependency_graph := buildDependencyGraph chainSteps3,
              execution_order := ["p_x", "p_y", "p_z"],
              parallel_groups := [] } :=
  compileProtocol_ok_of
    (show extractExecutionSteps chainScript = .ok chainSteps3 from rfl)
    chain_mode
    (show calcExecutionPlan chainSteps3 (buildDependencyGraph chainSteps3) selId
      = .ok (["p_x", "p_y", "p_z"], []) from rfl)

/-- C10: in Parallel mode a `StepResult` is produced exactly for the steps
listed in some parallel group, in group order; compiled parallel groups
only ever contain batches with more than one member, so a step alone in
its ready batch — such as the sole root of the three-step chain — is
never executed by `execute_parallel` and appears in no `StepResult`,
even though it is listed in `execution_order`. -/
theorem parallel_executes_only_grouped_steps :
    (∀ (env : StageEnv) (protocol : CompiledProtocol) (res : ExecutionResult),
      executeParallel env protocol = .ok res →
      res.step_results.map (fun r => r.step_id)
        = protocol.parallel_groups.flatten) ∧
    (∀ (script : TurbulanceScript) (ko : List String)
        (sel : List String → List String) (p : CompiledProtocol),
      SelValid sel → compileProtocol script ko sel = .ok p →
      ∀ gp ∈ p.parallel_groups, 1 < gp.length) ∧
    (execResOf (executeParallel simpleEnv
      (protoOf (compileProtocol chainScript chainKo selId)))).step_results = [] ∧
    (protoOf (compileProtocol chainScript chainKo selId)).execution_order
      = ["p_x", "p_y", "p_z"] := by
  refine ⟨?_, ?_, ?_, ?_⟩
  · intro env protocol res h
    unfold executeParallel at h
    obtain ⟨p, hp, h⟩ := bind_ok_inv h
    simp only [Except.ok.injEq] at h
    subst h
    have := execParGo_ids env protocol.execution_steps
      protocol.parallel_groups zeroUsage [] p hp
    simpa using this
  · intro script ko sel p hsel h
    obtain ⟨steps, mode, ord, grps, hex, hm, hp, rfl⟩ := compileProtocol_ok_inv h
    simp only
    unfold calcExecutionPlan at hp
    obtain ⟨batches, hord, hgrps, hperm, hlay⟩ := planLoop_ok hsel _ hp
    intro gp hgp
    rw [hgrps] at hgp
    have := List.mem_filter.mp hgp
    simpa using this.2
  · rw [chain_compile_ok]
    rfl
  · rw [chain_compile_ok]
    rfl

/-- C10 witness: the two-independent-step protocol executed in parallel
yields results exactly for its single two-element group. -/
theorem parallel_executes_only_grouped_steps_witness :
    executeParallel simpleEnv c1proto
      = .ok (execResOf (executeParallel simpleEnv c1proto)) ∧
    (execResOf (executeParallel simpleEnv c1proto)).step_results.map
      (fun r => r.step_id) = c1proto.parallel_groups.flatten ∧
    SelValid selId ∧
    compileProtocol twoIndepScript ["p_a", "p_b"] selId = .ok c1proto ∧
    ∀ gp ∈ c1proto.parallel_groups, 1 < gp.length :=
  ⟨rfl,
   parallel_executes_only_grouped_steps.1 simpleEnv c1proto
     (execResOf (executeParallel simpleEnv c1proto)) rfl,
   selId_valid, rfl,
   parallel_executes_only_grouped_steps.2.1 twoIndepScript ["p_a", "p_b"]
     selId c1proto selId_valid rfl⟩

/-! ## Parser totality and nested configurations (C8, C9) -/

/-- A pipeline-stage line whose configuration nests an array and a quoted
comma. -/
def c9lineA : String :=
  "r = pipeline_stage(\"query_processor\", \x7bkey: [true, false], note: \"a,b\"\x7d)"

/-- A pipeline-stage line whose configuration nests a second object. -/
def c9lineB : String :=
  "r = pipeline_stage(\"query_processor\", \x7ba: \x7bb: true\x7d\x7d)"

/-- C8 (code bug): `parse_script` is not total over line content: a
variable line whose value is a single double quote reaches `parse_value`,
whose slice `trimmed[1..trimmed.len()-1]` is the reversed byte range
`1..0` and panics in Rust, aborting the whole parse with no `Script`
returned and no error-counter increment; a line matching no recognized
pattern does degrade to an `Expression` node as specified. -/
theorem parse_script_panics_on_lone_quote :
    parseValue "\"" = .error slicePanicMsg ∧
    parseScript "x = \"" "p" = .error slicePanicMsg ∧
    parseLine "@@@" 1 = .ok (mkNode .Expression 1 "@@@" none []) :=
  ⟨rfl, rfl, rfl⟩

/-- C9 (corrected): the comma splitter respects bracket depth and quote
state, so a configuration nesting an array and a quoted comma parses into
nested values and its line is recognized as a `PipelineStage`; but the
pipeline-stage recognition pattern captures the configuration body
without nested closing braces, so a configuration containing a nested
object is not recognized and its line degrades to a `Variable` node. -/
theorem nested_config_recognition :
    parseLine c9lineA 1
      = .ok (mkNode .PipelineStage 1 c9lineA (some "r")
          [("stage", TValue.str "query_processor"),
           ("config", TValue.obj
             [("key", TValue.arr [TValue.bool true, TValue.bool false]),
              ("note", TValue.str "a,b")])]) ∧
    (parseLine c9lineB 1).map (fun n => n.node_type) = .ok NodeType.Variable :=
  ⟨rfl, rfl⟩

/-- Counterexample to C9 as stated: the nested-object configuration line
is not recognized as a pipeline stage. -/
theorem nested_brace_config_counterexample :
    (parseLine c9lineB 1).map (fun n => n.node_type)
      ≠ .ok NodeType.PipelineStage := by
  intro h
  rw [show (parseLine c9lineB 1).map (fun n => n.node_type)
      = .ok NodeType.Variable from rfl] at h
  injection h with h2
  exact NodeType.noConfusion h2
